import Mathlib

/-!
Verification of the ext2 forensic reader (`src/history.cpp`).

The development shallowly embeds the core of the program: the ghost-entry
scavenger (`findGhostEntries`), the directory-block scanner and tree walker
(`processDirectoryBlockWithGhosts` / `traverseDirectory`), the per-inode
reference index, and the action-inference engine (`getGhostsandLive` /
`printRecoveredActions`).

Machine integers are modelled as `Nat` (all quantities involved stay far
below 2^32: offsets are bounded by the block size, lengths by 2^16, name
lengths by 2^8, so no wrap-around of the C `uint32_t` arithmetic can occur
on the modelled values).  C++ `std::string` values are byte strings and are
modelled as `List Nat`.  The image file is modelled as an explicit context
(`Image`) handing out blocks and inode records; the byte-level plumbing that
locates an inode inside the inode table is abstracted behind
`Image.readInode`, per the stated contract of the inode reader.

Recursions of the source that are loops over a block are bounded by an
explicit structural gas parameter chosen at each call site to dominate the
number of iterations the loop can perform (each loop strictly advances an
offset that is bounded by the slack size or the block size), so that every
definition is executable and reduces in the kernel.  The mutually recursive
tree walk is fuel-indexed and returns `none` on fuel exhaustion, which makes
termination of the C++ recursion equivalent to `∃ fuel, result ≠ none`.
-/

namespace Ext2

/-- Byte strings (contents of C++ `std::string` / raw block buffers). -/
abbrev Bytes := List Nat

/-- Read one byte of a buffer; positions outside the buffer read as 0.
(`findGhostEntriesE` below re-does these reads with explicit bounds
checking, for the in-bounds claim.) -/
def byteAt (buf : Bytes) (i : Nat) : Nat := buf.getD i 0

/-- Little-endian 16-bit read, as the reinterpret-cast of `u16 length`. -/
def u16At (buf : Bytes) (i : Nat) : Nat := byteAt buf i + 256 * byteAt buf (i + 1)

/-- Little-endian 32-bit read, as the reinterpret-cast of `u32 inode`. -/
def u32At (buf : Bytes) (i : Nat) : Nat :=
  byteAt buf i + 256 * byteAt buf (i + 1) + 65536 * byteAt buf (i + 2) +
    16777216 * byteAt buf (i + 3)

/-- The name field of a directory record: exactly `n` bytes starting at `i`. -/
def nameBytes (buf : Bytes) (i n : Nat) : Bytes :=
  (List.range n).map (fun k => byteAt buf (i + k))

/-- The byte string ".". -/
def dotName : Bytes := [46]

/-- The byte string "..". -/
def dotdotName : Bytes := [46, 46]

/-- Modelled from the spec: the superblock magic sentinel `0xEF53`
(`EXT2_SUPER_MAGIC` lives in the header `ext2fs.h`, which is not in `src/`). -/
def EXT2_SUPER_MAGIC : Nat := 0xEF53

/-- Modelled from the spec: the well-known directory bit of the inode
`mode` field (defined in the missing header `ext2fs.h`). -/
def EXT2_I_DTYPE : Nat := 0x4000

/-- Modelled from the spec: the well-known directory file-type code of a
directory record (defined in the missing header `ext2fs.h`). -/
def EXT2_D_DTYPE : Nat := 2

/-- The fixed, well-known root inode number. -/
def EXT2_ROOT_INODE : Nat := 2

/-- The inode record, restricted to the fields the core reads
(`ext2_inode` of the missing header; the field list follows the data model
of the spec and every use in `history.cpp`). -/
structure ext2_inode where
  mode : Nat
  access_time : Nat
  modification_time : Nat
  change_time : Nat
  deletion_time : Nat
  direct_blocks : List Nat
  single_indirect : Nat
  double_indirect : Nat
  triple_indirect : Nat
deriving DecidableEq

/-- The all-zero inode (`readInode` memsets the record to 0 first). -/
def zeroInode : ext2_inode :=
  { mode := 0, access_time := 0, modification_time := 0, change_time := 0,
    deletion_time := 0, direct_blocks := List.replicate 12 0,
    single_indirect := 0, double_indirect := 0, triple_indirect := 0 }

instance : Inhabited ext2_inode := ⟨zeroInode⟩

/-- `inode.mode & EXT2_I_DTYPE` as a truth value. -/
def isDirMode (m : Nat) : Bool := decide (m &&& EXT2_I_DTYPE ≠ 0)

/-- `struct GhostEntry` of `history.cpp`. -/
structure GhostEntry where
  inode : Nat
  name : Bytes
  file_type : Nat
deriving DecidableEq

/-- `calculateEntrySize` of `history.cpp`: `(8 + name_length + 3) & ~3`,
the 4-byte aligned actual size of a directory record. -/
def calculateEntrySize (name_length : Nat) : Nat :=
  (8 + name_length + 3) / 4 * 4

/-- The worker loop of `findGhostEntries` (`history.cpp:159-192`).  `gas`
is a structural bound on the number of loop iterations; every iteration
advances `offset` by at least 4, and the loop runs only while
`offset + 8 ≤ start_offset + available_space`, so `available_space + 8`
iterations always suffice (see `findGhostEntries`). -/
def findGhostAux (block_buffer : Bytes) (start_offset available_space : Nat) :
    Nat → Nat → List GhostEntry
  | 0, _ => []
  | gas + 1, offset =>
    if offset + 8 ≤ start_offset + available_space then
      let inode := u32At block_buffer offset
      let length := u16At block_buffer (offset + 4)
      let name_length := byteAt block_buffer (offset + 6)
      let file_type := byteAt block_buffer (offset + 7)
      if inode = 0 ∨ name_length = 0 ∨ name_length > 255 ∨ length = 0 ∨
          offset + name_length + 8 > start_offset + available_space then
        findGhostAux block_buffer start_offset available_space gas (offset + 4)
      else
        let name := nameBytes block_buffer (offset + 8) name_length
        let rest := findGhostAux block_buffer start_offset available_space gas
          (offset + calculateEntrySize name_length)
        if name = dotName ∨ name = dotdotName then rest
        else ⟨inode, name, file_type⟩ :: rest
    else []

/-- `findGhostEntries` of `history.cpp` (the final version of the scavenger:
no printable-character filter).  The loop guard uses
`sizeof(ext2_dir_entry) = 8`, the size of the fixed record header per the
record layout of the spec (the header `ext2fs.h` is not in `src/`). -/
def findGhostEntries (block_buffer : Bytes) (start_offset available_space : Nat) :
    List GhostEntry :=
  findGhostAux block_buffer start_offset available_space (available_space + 8) start_offset

/-- Modelled from the spec: the ghost scavenger as worded in spec §4.D,
for comparison with `findGhostEntries`.  A cursor slides through the slack
(`while the cursor is inside the slack`); at each position the candidate is
rejected (advance 4) if its inode is 0, its name length is 0 or over 255,
its declared length is 0, or the record start plus name length plus 8
exceeds the end of the slack; otherwise it is accepted as-is (no
printable-character filtering), `.` and `..` are never emitted, and the
cursor advances by `align4(8 + name_length)`. -/
def ghostScavengerSpecAux (block_buffer : Bytes) (start_offset available_space : Nat) :
    Nat → Nat → List GhostEntry
  | 0, _ => []
  | gas + 1, offset =>
    if offset < start_offset + available_space then
      let inode := u32At block_buffer offset
      let length := u16At block_buffer (offset + 4)
      let name_length := byteAt block_buffer (offset + 6)
      let file_type := byteAt block_buffer (offset + 7)
      if inode = 0 ∨ name_length = 0 ∨ name_length > 255 ∨ length = 0 ∨
          offset + name_length + 8 > start_offset + available_space then
        ghostScavengerSpecAux block_buffer start_offset available_space gas (offset + 4)
      else
        let name := nameBytes block_buffer (offset + 8) name_length
        let rest := ghostScavengerSpecAux block_buffer start_offset available_space gas
          (offset + calculateEntrySize name_length)
        if name = dotName ∨ name = dotdotName then rest
        else ⟨inode, name, file_type⟩ :: rest
    else []

/-- Modelled from the spec: entry point of the spec-worded scavenger. -/
def ghostScavengerSpec (block_buffer : Bytes) (start_offset available_space : Nat) :
    List GhostEntry :=
  ghostScavengerSpecAux block_buffer start_offset available_space
    (available_space + 8) start_offset

theorem ghostScavengerSpecAux_tail_nil (buf : Bytes) (s a : Nat) :
    ∀ gas offset, s + a < offset + 8 → ghostScavengerSpecAux buf s a gas offset = [] := by
  intro gas
  induction gas with
  | zero => intro offset _; rfl
  | succ g ih =>
    intro offset h
    unfold ghostScavengerSpecAux
    by_cases hlt : offset < s + a
    · rw [if_pos hlt, if_pos (by omega)]
      exact ih (offset + 4) (by omega)
    · rw [if_neg hlt]

theorem findGhostAux_eq_specAux (buf : Bytes) (s a : Nat) :
    ∀ gas offset, ghostScavengerSpecAux buf s a gas offset = findGhostAux buf s a gas offset := by
  intro gas
  induction gas with
  | zero => intro offset; rfl
  | succ g ih =>
    intro offset
    unfold ghostScavengerSpecAux findGhostAux
    by_cases hg : offset + 8 ≤ s + a
    · rw [if_pos (by omega : offset < s + a), if_pos hg]
      by_cases hrej : u32At buf offset = 0 ∨ byteAt buf (offset + 6) = 0 ∨
          byteAt buf (offset + 6) > 255 ∨ u16At buf (offset + 4) = 0 ∨
          offset + byteAt buf (offset + 6) + 8 > s + a
      · simp only [if_pos hrej]; exact ih (offset + 4)
      · simp only [if_neg hrej]; rw [ih]
    · rw [if_neg hg]
      by_cases hlt : offset < s + a
      · rw [if_pos hlt, if_pos (by omega)]
        exact ghostScavengerSpecAux_tail_nil buf s a g (offset + 4) (by omega)
      · rw [if_neg hlt]

/-- A bounds-checked byte read: `.error` when the position is outside the
buffer, `.ok` with the byte otherwise.  `findGhostEntriesE` below is the
scavenger with every buffer access routed through this read. -/
def byteAtE (buf : Bytes) (i : Nat) : Except Unit Nat :=
  match buf.get? i with
  | some b => .ok b
  | none => .error ()

/-- Bounds-checked little-endian 16-bit read. -/
def u16AtE (buf : Bytes) (i : Nat) : Except Unit Nat := do
  let b0 ← byteAtE buf i
  let b1 ← byteAtE buf (i + 1)
  pure (b0 + 256 * b1)

/-- Bounds-checked little-endian 32-bit read. -/
def u32AtE (buf : Bytes) (i : Nat) : Except Unit Nat := do
  let b0 ← byteAtE buf i
  let b1 ← byteAtE buf (i + 1)
  let b2 ← byteAtE buf (i + 2)
  let b3 ← byteAtE buf (i + 3)
  pure (b0 + 256 * b1 + 65536 * b2 + 16777216 * b3)

/-- Bounds-checked read of the `n` name bytes starting at `i`. -/
def nameBytesE (buf : Bytes) (i n : Nat) : Except Unit Bytes :=
  (List.range n).mapM (fun k => byteAtE buf (i + k))

/-- The scavenger loop with every buffer access bounds-checked: the
out-of-bounds branch of each read produces `.error`. -/
def findGhostAuxE (buf : Bytes) (s a : Nat) : Nat → Nat → Except Unit (List GhostEntry)
  | 0, _ => .ok []
  | gas + 1, offset =>
    if offset + 8 ≤ s + a then do
      let inode ← u32AtE buf offset
      let length ← u16AtE buf (offset + 4)
      let name_length ← byteAtE buf (offset + 6)
      let file_type ← byteAtE buf (offset + 7)
      if inode = 0 ∨ name_length = 0 ∨ name_length > 255 ∨ length = 0 ∨
          offset + name_length + 8 > s + a then
        findGhostAuxE buf s a gas (offset + 4)
      else do
        let name ← nameBytesE buf (offset + 8) name_length
        let rest ← findGhostAuxE buf s a gas (offset + calculateEntrySize name_length)
        if name = dotName ∨ name = dotdotName then pure rest
        else pure (⟨inode, name, file_type⟩ :: rest)
    else .ok []

/-- `findGhostEntries` with guarded indexing. -/
def findGhostEntriesE (buf : Bytes) (start_offset available_space : Nat) :
    Except Unit (List GhostEntry) :=
  findGhostAuxE buf start_offset available_space (available_space + 8) start_offset

theorem byteAtE_ok (buf : Bytes) (i : Nat) (h : i < buf.length) :
    byteAtE buf i = .ok (byteAt buf i) := by
  unfold byteAtE byteAt
  cases hg : buf.get? i with
  | none => exact absurd (List.get?_eq_none.mp hg) (by omega)
  | some b =>
    rw [List.get?_eq_getElem?] at hg
    simp [List.getD_eq_getElem?_getD, hg]

theorem u16AtE_ok (buf : Bytes) (i : Nat) (h : i + 1 < buf.length) :
    u16AtE buf i = .ok (u16At buf i) := by
  unfold u16AtE u16At
  rw [byteAtE_ok buf i (by omega), byteAtE_ok buf (i + 1) (by omega)]
  rfl

theorem u32AtE_ok (buf : Bytes) (i : Nat) (h : i + 3 < buf.length) :
    u32AtE buf i = .ok (u32At buf i) := by
  unfold u32AtE u32At
  rw [byteAtE_ok buf i (by omega), byteAtE_ok buf (i + 1) (by omega),
    byteAtE_ok buf (i + 2) (by omega), byteAtE_ok buf (i + 3) (by omega)]
  rfl

theorem mapM_byteAtE_ok (buf : Bytes) (i : Nat) :
    ∀ ks : List Nat, (∀ k ∈ ks, i + k < buf.length) →
      ks.mapM (fun k => byteAtE buf (i + k)) = .ok (ks.map (fun k => byteAt buf (i + k))) := by
  intro ks
  induction ks with
  | nil => intro _; rfl
  | cons k t ih =>
    intro h
    rw [List.mapM_cons, byteAtE_ok buf (i + k) (h k (by simp)),
      List.map_cons]
    have ht := ih (fun x hx => h x (by simp [hx]))
    rw [show ((t.mapM fun k => byteAtE buf (i + k)) : Except Unit Bytes) =
      .ok (t.map fun k => byteAt buf (i + k)) from ht]
    rfl

theorem nameBytesE_ok (buf : Bytes) (i n : Nat) (h : ∀ k, k < n → i + k < buf.length) :
    nameBytesE buf i n = .ok (nameBytes buf i n) := by
  unfold nameBytesE nameBytes
  exact mapM_byteAtE_ok buf i (List.range n) (fun k hk => h k (List.mem_range.mp hk))

theorem findGhostAuxE_ok (buf : Bytes) (s a : Nat) (hb : s + a ≤ buf.length) :
    ∀ gas offset, findGhostAuxE buf s a gas offset = .ok (findGhostAux buf s a gas offset) := by
  intro gas
  induction gas with
  | zero => intro offset; rfl
  | succ g ih =>
    intro offset
    unfold findGhostAuxE findGhostAux
    by_cases hg : offset + 8 ≤ s + a
    · rw [if_pos hg, if_pos hg]
      rw [u32AtE_ok buf offset (by omega), u16AtE_ok buf (offset + 4) (by omega),
        byteAtE_ok buf (offset + 6) (by omega), byteAtE_ok buf (offset + 7) (by omega)]
      simp only [bind, Except.bind]
      by_cases hrej : u32At buf offset = 0 ∨ byteAt buf (offset + 6) = 0 ∨
          byteAt buf (offset + 6) > 255 ∨ u16At buf (offset + 4) = 0 ∨
          offset + byteAt buf (offset + 6) + 8 > s + a
      · rw [if_pos hrej, if_pos hrej]; exact ih (offset + 4)
      · rw [if_neg hrej, if_neg hrej]
        have hnl : offset + byteAt buf (offset + 6) + 8 ≤ s + a := by
          push_neg at hrej
          omega
        rw [nameBytesE_ok buf (offset + 8) (byteAt buf (offset + 6)) (fun k hk => by omega)]
        simp only [bind, Except.bind]
        rw [ih (offset + calculateEntrySize (byteAt buf (offset + 6)))]
        simp only [bind, Except.bind]
        by_cases hdot : nameBytes buf (offset + 8) (byteAt buf (offset + 6)) = dotName ∨
            nameBytes buf (offset + 8) (byteAt buf (offset + 6)) = dotdotName
        · rw [if_pos hdot, if_pos hdot]; rfl
        · rw [if_neg hdot, if_neg hdot]; rfl
    · rw [if_neg hg, if_neg hg]

/-- Claim C9: for every block buffer, start offset and available space with
`start_offset + available_space` within the buffer, the ghost scavenger
reads only bytes inside the slack interval — the 8-byte record header only
under the loop guard and name bytes only for candidates whose
`offset + name_length + 8` fits — so the bounds-checked scavenger
`findGhostEntriesE` never takes its out-of-bounds branch and returns
exactly the unchecked result. -/
theorem findGhostEntries_in_bounds (buf : Bytes) (start_offset available_space : Nat)
    (h : start_offset + available_space ≤ buf.length) :
    findGhostEntriesE buf start_offset available_space =
      .ok (findGhostEntries buf start_offset available_space) :=
  findGhostAuxE_ok buf start_offset available_space h
    (available_space + 8) start_offset

/-- Witness for claim C9 at a concrete buffer. -/
theorem findGhostEntries_in_bounds_witness :
    4 + 12 ≤ (List.replicate 16 0 : Bytes).length ∧
      findGhostEntriesE (List.replicate 16 0) 4 12 =
        .ok (findGhostEntries (List.replicate 16 0) 4 12) :=
  ⟨by simp, findGhostEntries_in_bounds (List.replicate 16 0) 4 12 (by simp)⟩

/-- Claim C1: for every block buffer, start offset and slack size, the ghost
scavenger behaves exactly as the spec words it: it slides a cursor through
the slack, rejects a candidate (advancing by 4) precisely when its inode is
0, its name length is 0 or over 255, its declared length is 0, or the record
start plus name length plus 8 exceeds the end of the slack, accepts every
other candidate as-is recording inode, exactly `name_length` name bytes and
file-type code (never emitting `.` or `..`), advances by
`align4(8 + name_length)`, and applies no printable-character filtering:
the code function `findGhostEntries` coincides with the spec-worded
scavenger `ghostScavengerSpec` on all inputs. -/
theorem findGhostEntries_matches_spec (buf : Bytes) (start_offset available_space : Nat) :
    findGhostEntries buf start_offset available_space =
      ghostScavengerSpec buf start_offset available_space :=
  (findGhostAux_eq_specAux buf start_offset available_space
    (available_space + 8) start_offset).symm

/-- `struct EntryRecord` of `history.cpp`: one live or ghost sighting of an
inode inside some directory. -/
structure EntryRecord where
  full_path : Bytes
  name : Bytes
  parent_inode : Nat
  is_ghost : Bool
deriving DecidableEq

/-- A default-constructed `EntryRecord` (strings empty; the numeric and
boolean members are indeterminate in C++ and modelled as 0 / false). -/
def defaultEntry : EntryRecord := ⟨[], [], 0, false⟩

instance : Inhabited EntryRecord := ⟨defaultEntry⟩

/-- `struct Info` of `history.cpp`. -/
structure Info where
  live_count : Nat
  ghost_count : Nat
  LiveEntry : EntryRecord
  CreationEntry : EntryRecord
  DeletionEntry : EntryRecord
  OtherGhost : EntryRecord
  foundCreation : Bool
  foundDeletion : Bool
  foundOtherGhost : Bool
deriving DecidableEq

/-- `struct InodeRecord` of `history.cpp`: the inode data snapshot plus all
observed references. -/
structure InodeRecord where
  inode_data : ext2_inode
  entries : List EntryRecord
deriving DecidableEq

/-- The counting loop at the head of `getGhostsandLive`
(`history.cpp:369-375`): live count, ghost count, and `LiveEntry` = the
last non-ghost reference seen. -/
def countsAndLive : List EntryRecord → Nat × Nat × EntryRecord → Nat × Nat × EntryRecord
  | [], st => st
  | e :: rest, (lc, gc, live) =>
    if e.is_ghost then countsAndLive rest (lc, gc + 1, live)
    else countsAndLive rest (lc + 1, gc, e)

/-- The creation-search loop restricted to ghosts
(`history.cpp:394-399`, also used at 427-432 and 479-484): returns the
break result (first ghost whose parent `modification_time` equals the
inode's `access_time`), together with `potential_flag` and `potential`
(count of, and last, ghost seen before the break whose parent
`access_time` is below the inode's `access_time`). -/
def creationScanG (rd : Nat → ext2_inode) (atv : Nat) :
    List EntryRecord → Nat → Option EntryRecord →
      Option EntryRecord × Nat × Option EntryRecord
  | [], flag, pot => (none, flag, pot)
  | e :: rest, flag, pot =>
    if e.is_ghost ∧ (rd e.parent_inode).modification_time = atv then (some e, flag, pot)
    else if e.is_ghost ∧ (rd e.parent_inode).access_time < atv then
      creationScanG rd atv rest (flag + 1) (some e)
    else creationScanG rd atv rest flag pot

/-- The creation-search loop over all entries (`history.cpp:443-448`,
the `ghost_count==2 && live_count==0` case checks no ghost flag). -/
def creationScanAll (rd : Nat → ext2_inode) (atv : Nat) :
    List EntryRecord → Nat → Option EntryRecord →
      Option EntryRecord × Nat × Option EntryRecord
  | [], flag, pot => (none, flag, pot)
  | e :: rest, flag, pot =>
    if (rd e.parent_inode).modification_time = atv then (some e, flag, pot)
    else if (rd e.parent_inode).access_time < atv then
      creationScanAll rd atv rest (flag + 1) (some e)
    else creationScanAll rd atv rest flag pot

/-- The deletion-search loop (`history.cpp:459-464` and 488-493): break on
the first entry whose parent `modification_time` equals the inode's
`deletion_time`; count/remember entries whose parent `modification_time`
exceeds it. -/
def deletionScanAll (rd : Nat → ext2_inode) (dtv : Nat) :
    List EntryRecord → Nat → Option EntryRecord →
      Option EntryRecord × Nat × Option EntryRecord
  | [], flag, pot => (none, flag, pot)
  | e :: rest, flag, pot =>
    if (rd e.parent_inode).modification_time = dtv then (some e, flag, pot)
    else if (rd e.parent_inode).modification_time > dtv then
      deletionScanAll rd dtv rest (flag + 1) (some e)
    else deletionScanAll rd dtv rest flag pot

/-- The post-processing after each search loop
(`if(potential_flag==1) {Entry=potential; found=true;}`): the unique
"potential" overrides the break result whenever the flag is exactly 1. -/
def resolveScan : Option EntryRecord × Nat × Option EntryRecord → Bool × EntryRecord
  | (brk, flag, pot) =>
    let base := match brk with
      | some e => (true, e)
      | none => (false, defaultEntry)
    if flag = 1 then (true, pot.getD defaultEntry) else base

/-- A no-break selection loop of `getGhostsandLive` (e.g.
`history.cpp:403-405`): the last entry satisfying the predicate wins. -/
def lastWhere (p : EntryRecord → Bool) (es : List EntryRecord) : Option EntryRecord :=
  es.foldl (fun acc e => if p e then some e else acc) none

/-- The C++ test `e.is_ghost && !(e == x)` used by the remaining-entry
loops of `getGhostsandLive`. -/
def neGhost (x e : EntryRecord) : Bool := e.is_ghost && !decide (e = x)

/-- The C++ test `!(e == x)` (`history.cpp:470`, no ghost check). -/
def neAll (x e : EntryRecord) : Bool := !decide (e = x)

/-- The `OtherGhost` fallback test (`history.cpp:409-410`): the ghost's
parent `modification_time` equals the live parent's `modification_time`
or the inode's `change_time`. -/
def otherGhostMatch (rd : Nat → ext2_inode) (ctv : Nat) (live e : EntryRecord) : Bool :=
  decide ((rd e.parent_inode).modification_time =
      (rd live.parent_inode).modification_time ∨
    (rd e.parent_inode).modification_time = ctv)

/-- `getGhostsandLive` of `history.cpp` (lines 365-500).  `rd` is the
`readInode` context (the parent-inode timestamps it consults). -/
def getGhostsandLive (rd : Nat → ext2_inode) (inode : InodeRecord) : Info :=
  let (live_count, ghost_count, LiveEntry) := countsAndLive inode.entries (0, 0, defaultEntry)
  let atv := inode.inode_data.access_time
  let ctv := inode.inode_data.change_time
  let dtv := inode.inode_data.deletion_time
  let base : Info :=
    { live_count := live_count, ghost_count := ghost_count, LiveEntry := LiveEntry,
      CreationEntry := defaultEntry, DeletionEntry := defaultEntry,
      OtherGhost := defaultEntry, foundCreation := false, foundDeletion := false,
      foundOtherGhost := false }
  if ghost_count = 0 ∧ live_count = 1 then
    { base with CreationEntry := LiveEntry, foundCreation := true }
  else if ghost_count = 1 ∧ live_count = 1 then
    match inode.entries.find? (fun e => e.is_ghost) with
    | some e => { base with CreationEntry := e, foundCreation := true }
    | none => base
  else if ghost_count = 2 ∧ live_count = 1 then
    let (fc, ce) := resolveScan (creationScanG rd atv inode.entries 0 none)
    if fc then
      let og := lastWhere (neGhost ce) inode.entries
      { base with
          CreationEntry := ce, foundCreation := true,
          OtherGhost := og.getD defaultEntry, foundOtherGhost := og.isSome }
    else
      match inode.entries.find? (fun e => e.is_ghost &&
          otherGhostMatch rd ctv LiveEntry e) with
      | some o =>
        let ce2 := lastWhere (neGhost o) inode.entries
        { base with
            OtherGhost := o, foundOtherGhost := true,
            CreationEntry := ce2.getD defaultEntry, foundCreation := ce2.isSome }
      | none => base
  else if 2 < ghost_count ∧ live_count = 1 then
    let (fc, ce) := resolveScan (creationScanG rd atv inode.entries 0 none)
    { base with CreationEntry := ce, foundCreation := fc }
  else if ghost_count = 1 ∧ live_count = 0 then
    { base with
        CreationEntry := inode.entries.getD 0 defaultEntry,
        DeletionEntry := inode.entries.getD 0 defaultEntry,
        foundCreation := true, foundDeletion := true }
  else if ghost_count = 2 ∧ live_count = 0 then
    let (fc, ce) := resolveScan (creationScanAll rd atv inode.entries 0 none)
    if fc then
      let de := lastWhere (neGhost ce) inode.entries
      { base with
          CreationEntry := ce, foundCreation := true,
          DeletionEntry := de.getD defaultEntry, foundDeletion := de.isSome }
    else
      let (fd, de) := resolveScan (deletionScanAll rd dtv inode.entries 0 none)
      if fd then
        let ce2 := lastWhere (neAll de) inode.entries
        { base with
            DeletionEntry := de, foundDeletion := true,
            CreationEntry := ce2.getD defaultEntry, foundCreation := ce2.isSome }
      else base
  else if 2 < ghost_count ∧ live_count = 0 then
    let (fc, ce) := resolveScan (creationScanG rd atv inode.entries 0 none)
    let (fd, de) := resolveScan (deletionScanAll rd dtv inode.entries 0 none)
    { base with
        CreationEntry := ce, foundCreation := fc,
        DeletionEntry := de, foundDeletion := fd }
  else base

/-- Rule (a) of the creation heuristic: the ghost's parent
`modification_time` equals the inode's `access_time`. -/
def creationA (rd : Nat → ext2_inode) (atv : Nat) (e : EntryRecord) : Bool :=
  decide ((rd e.parent_inode).modification_time = atv)

/-- Rule (b) of the creation heuristic: the ghost's parent `access_time`
is below the inode's `access_time`. -/
def creationB (rd : Nat → ext2_inode) (atv : Nat) (e : EntryRecord) : Bool :=
  decide ((rd e.parent_inode).access_time < atv)

/-- The creation selection as `getGhostsandLive` actually implements it:
scan the ghosts in entry order, stopping at the first rule-(a) match; if
exactly one ghost scanned before that stop satisfies rule (b), that unique
(b)-ghost is selected (the `potential_flag == 1` post-check overrides even
a found (a)-match); otherwise the stopping (a)-ghost, if any, is selected. -/
def amendedCreationSelect (isA isB : EntryRecord → Bool) (ghosts : List EntryRecord) :
    Option EntryRecord :=
  if ((ghosts.takeWhile (fun e => !isA e)).filter isB).length = 1 then
    ((ghosts.takeWhile (fun e => !isA e)).filter isB).getLast?
  else ghosts.find? isA

theorem countsAndLive_cons_ghost (e : EntryRecord) (rest : List EntryRecord)
    (lc gc : Nat) (lv : EntryRecord) (h : e.is_ghost = true) :
    countsAndLive (e :: rest) (lc, gc, lv) = countsAndLive rest (lc, gc + 1, lv) := by
  simp [countsAndLive, h]

theorem countsAndLive_cons_live (e : EntryRecord) (rest : List EntryRecord)
    (lc gc : Nat) (lv : EntryRecord) (h : e.is_ghost = false) :
    countsAndLive (e :: rest) (lc, gc, lv) = countsAndLive rest (lc + 1, gc, e) := by
  simp [countsAndLive, h]

theorem countsAndLive_eq :
    ∀ (es : List EntryRecord) (lc gc : Nat) (lv : EntryRecord),
      countsAndLive es (lc, gc, lv) =
        (lc + (es.filter (fun e => !e.is_ghost)).length,
         gc + (es.filter (fun e => e.is_ghost)).length,
         (es.filter (fun e => !e.is_ghost)).getLastD lv) := by
  intro es
  induction es with
  | nil => intro lc gc lv; simp [countsAndLive]
  | cons e rest ih =>
    intro lc gc lv
    by_cases hg : e.is_ghost = true
    · have hf1 : (e :: rest).filter (fun e => !e.is_ghost) =
          rest.filter (fun e => !e.is_ghost) :=
        List.filter_cons_of_neg (by simp [hg])
      have hf2 : (e :: rest).filter (fun e => e.is_ghost) =
          e :: rest.filter (fun e => e.is_ghost) :=
        List.filter_cons_of_pos (by simpa using hg)
      rw [countsAndLive_cons_ghost e rest lc gc lv hg, ih, hf1, hf2]
      simp only [List.length_cons, Prod.mk.injEq, and_true, true_and, eq_self_iff_true]
      omega
    · have hg' : e.is_ghost = false := by simpa using hg
      have hf1 : (e :: rest).filter (fun e => !e.is_ghost) =
          e :: rest.filter (fun e => !e.is_ghost) :=
        List.filter_cons_of_pos (by simp [hg'])
      have hf2 : (e :: rest).filter (fun e => e.is_ghost) =
          rest.filter (fun e => e.is_ghost) :=
        List.filter_cons_of_neg (by simp [hg'])
      rw [countsAndLive_cons_live e rest lc gc lv hg', ih, hf1, hf2,
        List.getLastD_cons]
      simp only [List.length_cons, Prod.mk.injEq, and_true, true_and, eq_self_iff_true]
      omega

theorem creationScanG_cons (rd : Nat → ext2_inode) (atv : Nat) (e : EntryRecord)
    (rest : List EntryRecord) (flag : Nat) (pot : Option EntryRecord) :
    creationScanG rd atv (e :: rest) flag pot =
      if e.is_ghost ∧ (rd e.parent_inode).modification_time = atv then (some e, flag, pot)
      else if e.is_ghost ∧ (rd e.parent_inode).access_time < atv then
        creationScanG rd atv rest (flag + 1) (some e)
      else creationScanG rd atv rest flag pot := rfl

theorem creationScanG_nil (rd : Nat → ext2_inode) (atv : Nat) (flag : Nat)
    (pot : Option EntryRecord) : creationScanG rd atv [] flag pot = (none, flag, pot) := rfl

theorem creationScanG_filter (rd : Nat → ext2_inode) (atv : Nat) :
    ∀ (es : List EntryRecord) (flag : Nat) (pot : Option EntryRecord),
      creationScanG rd atv es flag pot =
        creationScanG rd atv (es.filter (fun e => e.is_ghost)) flag pot := by
  intro es
  induction es with
  | nil => intro flag pot; rfl
  | cons e rest ih =>
    intro flag pot
    by_cases hg : e.is_ghost = true
    · rw [List.filter_cons_of_pos (by simpa using hg)]
      by_cases hA : (rd e.parent_inode).modification_time = atv
      · simp [creationScanG_cons, hg, hA]
      · by_cases hB : (rd e.parent_inode).access_time < atv
        · simp [creationScanG_cons, hg, hA, hB, ih]
        · simp [creationScanG_cons, hg, hA, hB, ih]
    · rw [List.filter_cons_of_neg (by simpa using hg)]
      simp [creationScanG_cons, hg, ih]

theorem lastWhere_filter (p : EntryRecord → Bool)
    (hp : ∀ e, e.is_ghost = false → p e = false) :
    ∀ (es : List EntryRecord),
      lastWhere p es = lastWhere p (es.filter (fun e => e.is_ghost)) := by
  have haux : ∀ (es : List EntryRecord) (acc : Option EntryRecord),
      es.foldl (fun acc e => if p e then some e else acc) acc =
        (es.filter (fun e => e.is_ghost)).foldl
          (fun acc e => if p e then some e else acc) acc := by
    intro es
    induction es with
    | nil => intro acc; rfl
    | cons e rest ih =>
      intro acc
      by_cases hg : e.is_ghost = true
      · rw [List.filter_cons_of_pos (by simpa using hg)]
        simp only [List.foldl_cons]
        exact ih _
      · have hg' : e.is_ghost = false := by simpa using hg
        rw [List.filter_cons_of_neg (by simp [hg'])]
        simp only [List.foldl_cons]
        rw [if_neg (by simp [hp e hg'])]
        exact ih acc
  intro es
  exact haux es none

theorem find?_filter_ghost (p : EntryRecord → Bool)
    (hp : ∀ e, e.is_ghost = false → p e = false) :
    ∀ es : List EntryRecord,
      es.find? p = (es.filter (fun e => e.is_ghost)).find? p := by
  intro es
  induction es with
  | nil => rfl
  | cons e rest ih =>
    by_cases hg : e.is_ghost = true
    · rw [List.filter_cons_of_pos (by simpa using hg)]
      by_cases hq : p e = true
      · rw [List.find?_cons_of_pos _ hq, List.find?_cons_of_pos _ hq]
      · rw [List.find?_cons_of_neg _ hq, List.find?_cons_of_neg _ hq]
        exact ih
    · have hg' : e.is_ghost = false := by simpa using hg
      rw [List.filter_cons_of_neg (by simp [hg']),
        List.find?_cons_of_neg _ (by simp [hp e hg'])]
      exact ih

theorem scan2_eq_amended (rd : Nat → ext2_inode) (atv : Nat) (g1 g2 : EntryRecord)
    (hg1 : g1.is_ghost = true) (hg2 : g2.is_ghost = true) :
    resolveScan (creationScanG rd atv [g1, g2] 0 none) =
      ((amendedCreationSelect (creationA rd atv) (creationB rd atv) [g1, g2]).isSome,
       (amendedCreationSelect (creationA rd atv) (creationB rd atv) [g1, g2]).getD
         defaultEntry) := by
  by_cases hA1 : (rd g1.parent_inode).modification_time = atv <;>
    by_cases hB1 : (rd g1.parent_inode).access_time < atv <;>
      by_cases hA2 : (rd g2.parent_inode).modification_time = atv <;>
        by_cases hB2 : (rd g2.parent_inode).access_time < atv <;>
          simp [creationScanG_cons, creationScanG_nil, resolveScan, amendedCreationSelect,
            creationA, creationB, hg1, hg2, hA1, hB1, hA2, hB2]

theorem amendedCreationSelect_mem (isA isB : EntryRecord → Bool)
    (ghosts : List EntryRecord) (c : EntryRecord)
    (h : amendedCreationSelect isA isB ghosts = some c) : c ∈ ghosts := by
  unfold amendedCreationSelect at h
  by_cases hlen : ((ghosts.takeWhile (fun e => !isA e)).filter isB).length = 1
  · rw [if_pos hlen] at h
    obtain ⟨hn, heq⟩ := List.mem_getLast?_eq_getLast (show c ∈ _ from h)
    subst heq
    exact (List.takeWhile_sublist _).mem ((List.filter_sublist _).mem (List.getLast_mem hn))
  · rw [if_neg hlen] at h
    exact List.mem_of_find?_eq_some h

theorem lastWhere_ne_pair (g1 g2 c : EntryRecord) (hg1 : g1.is_ghost = true)
    (hg2 : g2.is_ghost = true) (hne : g1 ≠ g2) (hc : c = g1 ∨ c = g2) :
    lastWhere (neGhost c) [g1, g2] = some (if c = g1 then g2 else g1) := by
  rcases hc with h | h
  · rw [h, if_pos rfl]
    have h21 : g2 ≠ g1 := fun hh => hne hh.symm
    simp [lastWhere, neGhost, hg1, hg2, h21]
  · rw [h, if_neg (fun hh : g2 = g1 => hne hh.symm)]
    simp [lastWhere, neGhost, hg1, hg2, hne]

/-- The entry record of the live reference in the C2 counterexample. -/
def lC2 : EntryRecord := ⟨[47, 97], [97], 2, false⟩

/-- The first-scanned ghost of the C2 counterexample: satisfies only
rule (b) (parent access_time 50 < inode access_time 100). -/
def gC2b : EntryRecord := ⟨[47, 98], [98], 3, true⟩

/-- The second-scanned ghost of the C2 counterexample: satisfies rule (a)
exactly (parent modification_time 100 = inode access_time 100). -/
def gC2a : EntryRecord := ⟨[47, 99], [99], 4, true⟩

/-- Parent-inode timestamps for the C2 counterexample. -/
def rdC2 : Nat → ext2_inode := fun n =>
  if n = 3 then { zeroInode with modification_time := 50, access_time := 50 }
  else if n = 4 then { zeroInode with modification_time := 100, access_time := 200 }
  else zeroInode

/-- The inode record of the C2 counterexample: two ghost references, one
live reference, deletion_time 0, access_time 100. -/
def recC2 : InodeRecord := ⟨{ zeroInode with access_time := 100 }, [lC2, gC2b, gC2a]⟩

/-- Counterexample to claim C2 as stated: although ghost `gC2a` matches
rule (a) exactly (its parent's modification_time equals the inode's
access_time), `getGhostsandLive` identifies `Creation` as the other ghost
`gC2b` (whose parent's modification_time does not): the
`potential_flag == 1` post-check overrides the (a)-match found by the
break, so rule (a) does not take priority over rule (b) as the claim
states. -/
theorem getGhostsandLive_creation_rule_counterexample :
    (getGhostsandLive rdC2 recC2).ghost_count = 2 ∧
    (getGhostsandLive rdC2 recC2).live_count = 1 ∧
    recC2.inode_data.deletion_time = 0 ∧
    gC2a.is_ghost = true ∧
    (rdC2 gC2a.parent_inode).modification_time = recC2.inode_data.access_time ∧
    (getGhostsandLive rdC2 recC2).foundCreation = true ∧
    (getGhostsandLive rdC2 recC2).CreationEntry = gC2b ∧
    gC2b ≠ gC2a ∧
    (rdC2 gC2b.parent_inode).modification_time ≠ recC2.inode_data.access_time := by
  decide

/-- Claim C2 (amended): for every inode with exactly two (distinct) ghost
references, one live reference and deletion_time 0, the engine resolves
`Creation` by `amendedCreationSelect`: the unique ghost satisfying (b)
`P.atime < I.atime` among those scanned before the first (a)-match
`P.mtime == I.atime` — this unique-(b) choice overrides an (a)-match —
else the first (a)-match; uniqueness of (b) is required, the earliest is
not silently picked.  If `Creation` is identified the remaining ghost
becomes `OtherGhost`; otherwise `OtherGhost` is the first ghost whose
parent's modification_time equals the live parent's modification_time or
the inode's change_time, and when found the remaining ghost becomes
`Creation`. -/
theorem getGhostsandLive_two_ghosts_one_live (rd : Nat → ext2_inode)
    (idata : ext2_inode) (entries : List EntryRecord) (g1 g2 l : EntryRecord)
    (hg : entries.filter (fun e => e.is_ghost) = [g1, g2])
    (hl : entries.filter (fun e => !e.is_ghost) = [l])
    (hne : g1 ≠ g2) (hdt : idata.deletion_time = 0) :
    (getGhostsandLive rd ⟨idata, entries⟩).live_count = 1 ∧
    (getGhostsandLive rd ⟨idata, entries⟩).ghost_count = 2 ∧
    (getGhostsandLive rd ⟨idata, entries⟩).LiveEntry = l ∧
    (match amendedCreationSelect (creationA rd idata.access_time)
        (creationB rd idata.access_time) [g1, g2] with
     | some c =>
       (getGhostsandLive rd ⟨idata, entries⟩).foundCreation = true ∧
       (getGhostsandLive rd ⟨idata, entries⟩).CreationEntry = c ∧
       (getGhostsandLive rd ⟨idata, entries⟩).foundOtherGhost = true ∧
       (getGhostsandLive rd ⟨idata, entries⟩).OtherGhost = (if c = g1 then g2 else g1)
     | none =>
       match [g1, g2].find? (fun e => otherGhostMatch rd idata.change_time l e) with
       | some o =>
         (getGhostsandLive rd ⟨idata, entries⟩).foundOtherGhost = true ∧
         (getGhostsandLive rd ⟨idata, entries⟩).OtherGhost = o ∧
         (getGhostsandLive rd ⟨idata, entries⟩).foundCreation = true ∧
         (getGhostsandLive rd ⟨idata, entries⟩).CreationEntry =
           (if o = g1 then g2 else g1)
       | none =>
         (getGhostsandLive rd ⟨idata, entries⟩).foundCreation = false ∧
         (getGhostsandLive rd ⟨idata, entries⟩).foundOtherGhost = false) := by
  have hg1 : g1.is_ghost = true := by
    have hm : g1 ∈ entries.filter (fun e => e.is_ghost) := by rw [hg]; simp
    simpa using (List.mem_filter.mp hm).2
  have hg2 : g2.is_ghost = true := by
    have hm : g2 ∈ entries.filter (fun e => e.is_ghost) := by rw [hg]; simp
    simpa using (List.mem_filter.mp hm).2
  have hcl := countsAndLive_eq entries 0 0 defaultEntry
  rw [hg, hl] at hcl
  simp only [List.length_cons, List.length_nil, List.getLastD_cons, List.getLastD_nil,
    Nat.zero_add] at hcl
  norm_num at hcl
  set I := getGhostsandLive rd ⟨idata, entries⟩ with hI
  rw [getGhostsandLive] at hI
  rw [show (⟨idata, entries⟩ : InodeRecord).entries = entries from rfl] at hI
  rw [hcl] at hI
  norm_num at hI
  rw [creationScanG_filter rd idata.access_time entries 0 none, hg,
    scan2_eq_amended rd idata.access_time g1 g2 hg1 hg2] at hI
  rcases hsel : amendedCreationSelect (creationA rd idata.access_time)
      (creationB rd idata.access_time) [g1, g2] with _ | c
  · rw [hsel] at hI
    simp at hI
    rw [find?_filter_ghost (fun e => e.is_ghost &&
        otherGhostMatch rd idata.change_time l e) (fun e he => by simp [he]) entries,
      hg] at hI
    by_cases hq1 : otherGhostMatch rd idata.change_time l g1 = true
    · rw [List.find?_cons_of_pos _ (by simp [hg1, hq1])] at hI
      simp at hI
      rw [lastWhere_filter (neGhost g1) (fun e he => by simp [neGhost, he]) entries, hg,
        lastWhere_ne_pair g1 g2 g1 hg1 hg2 hne (Or.inl rfl), if_pos rfl] at hI
      refine ⟨by simp [hI], by simp [hI], by simp [hI], ?_⟩
      rw [List.find?_cons_of_pos _
        (show (fun e => otherGhostMatch rd idata.change_time l e) g1 = true from hq1)]
      exact ⟨by simp [hI], by simp [hI], by simp [hI], by simp [hI]⟩
    · rw [List.find?_cons_of_neg _ (by simp [hq1])] at hI
      by_cases hq2 : otherGhostMatch rd idata.change_time l g2 = true
      · rw [List.find?_cons_of_pos _ (by simp [hg2, hq2])] at hI
        simp at hI
        rw [lastWhere_filter (neGhost g2) (fun e he => by simp [neGhost, he]) entries, hg,
          lastWhere_ne_pair g1 g2 g2 hg1 hg2 hne (Or.inr rfl),
          if_neg (fun hh : g2 = g1 => hne hh.symm)] at hI
        refine ⟨by simp [hI], by simp [hI], by simp [hI], ?_⟩
        rw [List.find?_cons_of_neg _
            (show ¬ (fun e => otherGhostMatch rd idata.change_time l e) g1 = true from hq1),
          List.find?_cons_of_pos _
            (show (fun e => otherGhostMatch rd idata.change_time l e) g2 = true from hq2)]
        exact ⟨by simp [hI], by simp [hI], by simp [hI],
          by rw [if_neg (fun hh : g2 = g1 => hne hh.symm)]; simp [hI]⟩
      · rw [List.find?_cons_of_neg _ (by simp [hq2]), List.find?_nil] at hI
        simp at hI
        refine ⟨by simp [hI], by simp [hI], by simp [hI], ?_⟩
        rw [List.find?_cons_of_neg _
            (show ¬ (fun e => otherGhostMatch rd idata.change_time l e) g1 = true from hq1),
          List.find?_cons_of_neg _
            (show ¬ (fun e => otherGhostMatch rd idata.change_time l e) g2 = true from hq2),
          List.find?_nil]
        exact ⟨by simp [hI], by simp [hI]⟩
  · rw [hsel] at hI
    simp at hI
    have hc : c = g1 ∨ c = g2 := by
      have hm := amendedCreationSelect_mem _ _ [g1, g2] c hsel
      simpa using hm
    rw [lastWhere_filter (neGhost c) (fun e he => by simp [neGhost, he]) entries, hg,
      lastWhere_ne_pair g1 g2 c hg1 hg2 hne hc] at hI
    refine ⟨by simp [hI], by simp [hI], by simp [hI], ?_⟩
    exact ⟨by simp [hI], by simp [hI], by simp [hI], by simp [hI]⟩

/-- Witness data for the amended C2 theorem: the live reference. -/
def lW : EntryRecord := ⟨[47, 122], [122], 2, false⟩

/-- Witness data for the amended C2 theorem: first ghost, rule-(a) match. -/
def gW1 : EntryRecord := ⟨[47, 120], [120], 3, true⟩

/-- Witness data for the amended C2 theorem: second ghost. -/
def gW2 : EntryRecord := ⟨[47, 121], [121], 5, true⟩

/-- Witness data for the amended C2 theorem: parent timestamps. -/
def rdW : Nat → ext2_inode := fun n =>
  if n = 3 then { zeroInode with modification_time := 7, access_time := 9 } else zeroInode

/-- Witness data for the amended C2 theorem: the inode data. -/
def idataW : ext2_inode := { zeroInode with access_time := 7 }

/-- Witness data for the amended C2 theorem: the entry list. -/
def entriesW : List EntryRecord := [gW1, gW2, lW]

/-- Witness for the amended C2 theorem at concrete data. -/
theorem getGhostsandLive_two_ghosts_one_live_witness :
    (entriesW.filter (fun e => e.is_ghost) = [gW1, gW2] ∧
     entriesW.filter (fun e => !e.is_ghost) = [lW] ∧
     gW1 ≠ gW2 ∧ idataW.deletion_time = 0) ∧
    ((getGhostsandLive rdW ⟨idataW, entriesW⟩).live_count = 1 ∧
     (getGhostsandLive rdW ⟨idataW, entriesW⟩).ghost_count = 2 ∧
     (getGhostsandLive rdW ⟨idataW, entriesW⟩).LiveEntry = lW ∧
     (match amendedCreationSelect (creationA rdW idataW.access_time)
         (creationB rdW idataW.access_time) [gW1, gW2] with
      | some c =>
        (getGhostsandLive rdW ⟨idataW, entriesW⟩).foundCreation = true ∧
        (getGhostsandLive rdW ⟨idataW, entriesW⟩).CreationEntry = c ∧
        (getGhostsandLive rdW ⟨idataW, entriesW⟩).foundOtherGhost = true ∧
        (getGhostsandLive rdW ⟨idataW, entriesW⟩).OtherGhost =
          (if c = gW1 then gW2 else gW1)
      | none =>
        match [gW1, gW2].find? (fun e => otherGhostMatch rdW idataW.change_time lW e) with
        | some o =>
          (getGhostsandLive rdW ⟨idataW, entriesW⟩).foundOtherGhost = true ∧
          (getGhostsandLive rdW ⟨idataW, entriesW⟩).OtherGhost = o ∧
          (getGhostsandLive rdW ⟨idataW, entriesW⟩).foundCreation = true ∧
          (getGhostsandLive rdW ⟨idataW, entriesW⟩).CreationEntry =
            (if o = gW1 then gW2 else gW1)
        | none =>
          (getGhostsandLive rdW ⟨idataW, entriesW⟩).foundCreation = false ∧
          (getGhostsandLive rdW ⟨idataW, entriesW⟩).foundOtherGhost = false)) :=
  ⟨⟨by decide, by decide, by decide, by decide⟩,
   getGhostsandLive_two_ghosts_one_live rdW idataW entriesW gW1 gW2 lW
     (by decide) (by decide) (by decide) (by decide)⟩

/-- The byte string "?" that the engine pushes for unknown mv endpoints. -/
def qmark : Bytes := [63]

/-- The kinds of inferred actions (`action.action` strings of the source). -/
inductive ActKind where
  | mkdir
  | touch
  | rmdir
  | rm
  | mv
deriving DecidableEq

/-- `struct Action` of `history.cpp`.  An empty `args` string models the
C++ `""` placeholder that `printAction` renders as `?`; an
`affected_dirs` value 0 likewise prints as `?`. -/
structure Action where
  timestamp : Nat
  action : ActKind
  args : List Bytes
  affected_dirs : List Nat
  affected_inodes : List Nat
deriving DecidableEq

/-- `printAction`'s per-argument rendering (`history.cpp:658-661`): the
empty string prints as `?`, everything else verbatim. -/
def renderArg (s : Bytes) : Bytes := if s = [] then qmark else s

/-- Helper building the `mv` actions the engine pushes (all of them carry
`affected_inodes = {inode}` and two args/two dirs). -/
def mvFrom (inode ts : Nat) (a1 a2 : Bytes) (d1 d2 : Nat) : Action :=
  { timestamp := ts, action := .mv, args := [a1, a2],
    affected_dirs := [d1, d2], affected_inodes := [inode] }

/-- The creation action (`history.cpp:508-520`): always emitted,
timestamped with the inode's access_time. -/
def creationAction (inode : Nat) (inode_data : ext2_inode) (info : Info) : Action :=
  { timestamp := inode_data.access_time,
    action := if inode_data.mode &&& EXT2_I_DTYPE ≠ 0 then .mkdir else .touch,
    args := if info.foundCreation then [info.CreationEntry.full_path] else [[]],
    affected_dirs := if info.foundCreation then [info.CreationEntry.parent_inode] else [0],
    affected_inodes := [inode] }

/-- The deletion action (`history.cpp:525-538`): emitted when
deletion_time is nonzero (and, per the surrounding control flow, only when
at least one ghost reference exists). -/
def deletionAction (inode : Nat) (inode_data : ext2_inode) (info : Info) : Action :=
  { timestamp := inode_data.deletion_time,
    action := if inode_data.mode &&& EXT2_I_DTYPE ≠ 0 then .rmdir else .rm,
    args := if info.foundDeletion then [info.DeletionEntry.full_path] else [[]],
    affected_dirs := if info.foundDeletion then [info.DeletionEntry.parent_inode] else [0],
    affected_inodes := [inode] }

/-- The `mv` emissions of the deleted-inode path (`history.cpp:542-575`). -/
def movesDel (rd : Nat → ext2_inode) (inode : Nat) (record : InodeRecord)
    (info : Info) : List Action :=
  if info.ghost_count = 2 ∧ info.foundCreation ∧ info.foundDeletion then
    [mvFrom inode 0 info.CreationEntry.full_path info.DeletionEntry.full_path
      info.CreationEntry.parent_inode info.DeletionEntry.parent_inode]
  else if 1 < info.ghost_count ∧ ¬ info.foundCreation then
    if info.foundDeletion then
      mvFrom inode 0 qmark info.DeletionEntry.full_path 0 info.DeletionEntry.parent_inode ::
        (record.entries.filter (fun e => e.is_ghost && neAll info.DeletionEntry e)).map
          (fun e => mvFrom inode 0 e.full_path qmark e.parent_inode 0)
    else
      (record.entries.filter (fun e => e.is_ghost &&
          decide ((rd e.parent_inode).modification_time ≠
            record.inode_data.deletion_time))).map
        (fun e => mvFrom inode 0 e.full_path qmark e.parent_inode 0)
  else []

/-- The `mv` emissions of the live-inode path, deletion_time 0
(`history.cpp:580-642`).  In the one-ghost case the source reads
`record.entries[0]` and `record.entries[1]`; the unguarded C++ vector
indexing is modelled with `getD`, whose out-of-range default stands for
the out-of-bounds read. -/
def movesNoDel (rd : Nat → ext2_inode) (inode : Nat) (record : InodeRecord)
    (info : Info) : List Action :=
  if info.ghost_count = 1 then
    [mvFrom inode
      (if record.inode_data.change_time ≠ record.inode_data.modification_time
       then record.inode_data.change_time else 0)
      (if (record.entries.getD 0 defaultEntry).is_ghost
       then (record.entries.getD 0 defaultEntry).full_path
       else (record.entries.getD 1 defaultEntry).full_path)
      (if (record.entries.getD 0 defaultEntry).is_ghost
       then (record.entries.getD 1 defaultEntry).full_path
       else (record.entries.getD 0 defaultEntry).full_path)
      (record.entries.getD 0 defaultEntry).parent_inode
      (record.entries.getD 1 defaultEntry).parent_inode]
  else if info.ghost_count = 2 ∧ info.foundCreation ∧ info.foundOtherGhost then
    [mvFrom inode 0 info.CreationEntry.full_path info.OtherGhost.full_path
      info.CreationEntry.parent_inode info.OtherGhost.parent_inode,
     mvFrom inode
      (if (rd info.OtherGhost.parent_inode).modification_time =
            (rd info.LiveEntry.parent_inode).modification_time ∨
          (rd info.OtherGhost.parent_inode).modification_time =
            record.inode_data.change_time
       then (rd info.OtherGhost.parent_inode).modification_time
       else if record.inode_data.change_time ≠ record.inode_data.modification_time
       then record.inode_data.change_time else 0)
      info.OtherGhost.full_path info.LiveEntry.full_path
      info.OtherGhost.parent_inode info.LiveEntry.parent_inode]
  else
    ((record.entries.filter (fun e => e.is_ghost)).map (fun e =>
      if (rd e.parent_inode).modification_time =
           (rd info.LiveEntry.parent_inode).modification_time ∨
         (rd e.parent_inode).modification_time = record.inode_data.change_time then
        mvFrom inode (rd e.parent_inode).modification_time
          e.full_path info.LiveEntry.full_path e.parent_inode info.LiveEntry.parent_inode
      else
        mvFrom inode 0 e.full_path qmark e.parent_inode 0)) ++
    (if (record.entries.filter (fun e => e.is_ghost)).any (fun e =>
          decide ((rd e.parent_inode).modification_time =
              (rd info.LiveEntry.parent_inode).modification_time ∨
            (rd e.parent_inode).modification_time = record.inode_data.change_time))
     then []
     else [mvFrom inode
        (if record.inode_data.change_time ≠ record.inode_data.modification_time
         then record.inode_data.change_time else 0)
        qmark info.LiveEntry.full_path 0 info.LiveEntry.parent_inode])

/-- Everything the per-inode loop body pushes after the creation action
(`history.cpp:523-643`): nothing when the inode has no ghost reference;
the deletion action plus its moves when deletion_time is nonzero; the
live-rename moves otherwise. -/
def restActions (rd : Nat → ext2_inode) (inode : Nat) (record : InodeRecord)
    (info : Info) : List Action :=
  if info.ghost_count = 0 then []
  else if record.inode_data.deletion_time ≠ 0 then
    deletionAction inode record.inode_data info :: movesDel rd inode record info
  else movesNoDel rd inode record info

/-- The per-inode body of the main loop of `printRecoveredActions`
(`history.cpp:505-643`): the creation action, then `restActions`. -/
def actionsFor (rd : Nat → ext2_inode) (inode : Nat) (record : InodeRecord) : List Action :=
  let info := getGhostsandLive rd record
  creationAction inode record.inode_data info :: restActions rd inode record info

/-- The per-inode reference index, keyed by inode number (the `std::map`
`inode_to_info`; `sortIndex` restores the ascending key iteration order
of `std::map` before the engine runs). -/
abbrev Index := List (Nat × InodeRecord)

/-- Ascending-key order on index entries. -/
def keyLE (p q : Nat × InodeRecord) : Prop := p.1 ≤ q.1

instance : DecidableRel keyLE := fun p q => Nat.decLe p.1 q.1

/-- `std::map` iteration order: the index sorted by key. -/
def sortIndex (idx : Index) : Index := List.insertionSort keyLE idx

/-- The timestamp order used for the final `std::sort`
(`history.cpp:646-648`, comparator `a.timestamp < b.timestamp`). -/
def tsLE (a b : Action) : Prop := a.timestamp ≤ b.timestamp

instance : DecidableRel tsLE := fun a b => Nat.decLe a.timestamp b.timestamp

instance : IsTotal Action tsLE := ⟨fun a b => Nat.le_total a.timestamp b.timestamp⟩

instance : IsTrans Action tsLE := ⟨fun a b c hab hbc => Nat.le_trans hab hbc⟩

/-- `printRecoveredActions` of `history.cpp` (lines 502-653) as the list
of actions it prints, in print order: every index entry's actions in
ascending key order, finally sorted by timestamp.  `std::sort` with the
strict comparator `a.timestamp < b.timestamp` produces some non-decreasing
arrangement; the model uses a stable insertion sort, one such arrangement
(the spec leaves the order within equal timestamps open). -/
def printRecoveredActions (rd : Nat → ext2_inode) (idx : Index) : List Action :=
  List.insertionSort tsLE
    ((sortIndex idx).flatMap (fun p => actionsFor rd p.1 p.2))

/-- A creation event for inode `i`: kind `mkdir` or `touch`, affected
object inode `i`. -/
def isCreationFor (i : Nat) (a : Action) : Bool :=
  decide ((a.action = ActKind.mkdir ∨ a.action = ActKind.touch) ∧ a.affected_inodes = [i])

/-- A deletion event for inode `i`: kind `rmdir` or `rm`, affected object
inode `i`. -/
def isDeletionFor (i : Nat) (a : Action) : Bool :=
  decide ((a.action = ActKind.rmdir ∨ a.action = ActKind.rm) ∧ a.affected_inodes = [i])

theorem movesDel_shape (rd : Nat → ext2_inode) (inode : Nat) (record : InodeRecord)
    (info : Info) :
    ∀ a ∈ movesDel rd inode record info,
      a.action = ActKind.mv ∧ a.affected_inodes = [inode] := by
  intro a ha
  unfold movesDel at ha
  split at ha
  · simp only [List.mem_singleton] at ha
    subst ha; exact ⟨rfl, rfl⟩
  · split at ha
    · split at ha
      · simp only [List.mem_cons, List.mem_map] at ha
        rcases ha with rfl | ⟨e, _, rfl⟩
        · exact ⟨rfl, rfl⟩
        · exact ⟨rfl, rfl⟩
      · simp only [List.mem_map] at ha
        rcases ha with ⟨e, _, rfl⟩
        exact ⟨rfl, rfl⟩
    · simp at ha

theorem movesNoDel_shape (rd : Nat → ext2_inode) (inode : Nat) (record : InodeRecord)
    (info : Info) :
    ∀ a ∈ movesNoDel rd inode record info,
      a.action = ActKind.mv ∧ a.affected_inodes = [inode] := by
  intro a ha
  unfold movesNoDel at ha
  split at ha
  · simp only [List.mem_singleton] at ha
    subst ha; exact ⟨rfl, rfl⟩
  · split at ha
    · simp only [List.mem_cons, List.not_mem_nil, or_false] at ha
      rcases ha with rfl | rfl
      · exact ⟨rfl, rfl⟩
      · exact ⟨rfl, rfl⟩
    · simp only [List.mem_append, List.mem_map] at ha
      rcases ha with ⟨e, _, rfl⟩ | ha
      · by_cases hc : ((rd e.parent_inode).modification_time =
            (rd info.LiveEntry.parent_inode).modification_time ∨
          (rd e.parent_inode).modification_time = record.inode_data.change_time)
        · rw [if_pos hc]; exact ⟨rfl, rfl⟩
        · rw [if_neg hc]; exact ⟨rfl, rfl⟩
      · split at ha
        · simp at ha
        · simp only [List.mem_singleton] at ha
          subst ha; exact ⟨rfl, rfl⟩

theorem restActions_shape (rd : Nat → ext2_inode) (inode : Nat) (record : InodeRecord)
    (info : Info) :
    ∀ a ∈ restActions rd inode record info,
      (a.action = ActKind.rmdir ∨ a.action = ActKind.rm ∨ a.action = ActKind.mv) ∧
        a.affected_inodes = [inode] := by
  intro a ha
  unfold restActions at ha
  split at ha
  · simp at ha
  · split at ha
    · rcases List.mem_cons.mp ha with rfl | ha'
      · unfold deletionAction
        by_cases hd : record.inode_data.mode &&& EXT2_I_DTYPE ≠ 0
        · rw [if_pos hd]; exact ⟨Or.inl rfl, rfl⟩
        · rw [if_neg hd]; exact ⟨Or.inr (Or.inl rfl), rfl⟩
      · have h := movesDel_shape rd inode record info a ha'
        exact ⟨Or.inr (Or.inr h.1), h.2⟩
    · have h := movesNoDel_shape rd inode record info a ha
      exact ⟨Or.inr (Or.inr h.1), h.2⟩

theorem restActions_not_creation (rd : Nat → ext2_inode) (i : Nat) (rec : InodeRecord)
    (info : Info) :
    ∀ a ∈ restActions rd i rec info, ¬ isCreationFor i a = true := by
  intro a ha
  rcases (restActions_shape rd i rec info a ha).1 with h | h | h <;>
    simp [isCreationFor, h]

theorem actionsFor_inodes (rd : Nat → ext2_inode) (inode : Nat) (record : InodeRecord) :
    ∀ a ∈ actionsFor rd inode record, a.affected_inodes = [inode] := by
  intro a ha
  unfold actionsFor at ha
  rcases List.mem_cons.mp ha with rfl | ha'
  · rfl
  · exact (restActions_shape rd inode record _ a ha').2

theorem creationAction_is_creation (inode : Nat) (inode_data : ext2_inode) (info : Info) :
    isCreationFor inode (creationAction inode inode_data info) = true := by
  by_cases hd : inode_data.mode &&& EXT2_I_DTYPE ≠ 0
  · simp [isCreationFor, creationAction, hd]
  · simp [isCreationFor, creationAction, hd]

theorem countP_creation_actionsFor (rd : Nat → ext2_inode) (i : Nat) (rec : InodeRecord) :
    (actionsFor rd i rec).countP (isCreationFor i) = 1 := by
  unfold actionsFor
  rw [List.countP_cons, creationAction_is_creation i rec.inode_data (getGhostsandLive rd rec),
    List.countP_eq_zero.mpr (restActions_not_creation rd i rec (getGhostsandLive rd rec))]
  simp

theorem creation_mem_actionsFor (rd : Nat → ext2_inode) (i : Nat) (rec : InodeRecord) :
    ∀ a ∈ actionsFor rd i rec, isCreationFor i a = true →
      a = creationAction i rec.inode_data (getGhostsandLive rd rec) := by
  intro a ha hp
  unfold actionsFor at ha
  rcases List.mem_cons.mp ha with rfl | ha'
  · rfl
  · exact absurd hp (restActions_not_creation rd i rec _ a ha')

theorem countP_creation_actionsFor_ne (rd : Nat → ext2_inode) (i j : Nat)
    (rec : InodeRecord) (hne : j ≠ i) :
    (actionsFor rd j rec).countP (isCreationFor i) = 0 := by
  refine List.countP_eq_zero.mpr (fun a ha h => ?_)
  have hinode := actionsFor_inodes rd j rec a ha
  simp only [isCreationFor, decide_eq_true_eq] at h
  rw [hinode] at h
  exact hne (by simpa using h.2)

theorem countP_deletion_actionsFor_ne (rd : Nat → ext2_inode) (i j : Nat)
    (rec : InodeRecord) (hne : j ≠ i) :
    (actionsFor rd j rec).countP (isDeletionFor i) = 0 := by
  refine List.countP_eq_zero.mpr (fun a ha h => ?_)
  have hinode := actionsFor_inodes rd j rec a ha
  simp only [isDeletionFor, decide_eq_true_eq] at h
  rw [hinode] at h
  exact hne (by simpa using h.2)

theorem deletionAction_is_deletion (inode : Nat) (inode_data : ext2_inode) (info : Info) :
    isDeletionFor inode (deletionAction inode inode_data info) = true := by
  by_cases hd : inode_data.mode &&& EXT2_I_DTYPE ≠ 0
  · simp [isDeletionFor, deletionAction, hd]
  · simp [isDeletionFor, deletionAction, hd]

theorem creationAction_not_deletion (inode : Nat) (inode_data : ext2_inode) (info : Info) :
    ¬ isDeletionFor inode (creationAction inode inode_data info) = true := by
  by_cases hd : inode_data.mode &&& EXT2_I_DTYPE ≠ 0
  · simp [isDeletionFor, creationAction, hd]
  · simp [isDeletionFor, creationAction, hd]

theorem countP_deletion_actionsFor (rd : Nat → ext2_inode) (i : Nat) (rec : InodeRecord)
    (hgc : (getGhostsandLive rd rec).ghost_count ≠ 0)
    (hdt : rec.inode_data.deletion_time ≠ 0) :
    (actionsFor rd i rec).countP (isDeletionFor i) = 1 := by
  unfold actionsFor restActions
  rw [List.countP_cons,
    if_neg (creationAction_not_deletion i rec.inode_data (getGhostsandLive rd rec)),
    if_neg hgc, if_pos hdt, List.countP_cons,
    deletionAction_is_deletion i rec.inode_data (getGhostsandLive rd rec)]
  have hmv : ∀ a ∈ movesDel rd i rec (getGhostsandLive rd rec),
      ¬ isDeletionFor i a = true := by
    intro a ha
    have := (movesDel_shape rd i rec _ a ha).1
    simp [isDeletionFor, this]
  rw [List.countP_eq_zero.mpr hmv]
  simp

theorem deletion_mem_actionsFor (rd : Nat → ext2_inode) (i : Nat) (rec : InodeRecord) :
    ∀ a ∈ actionsFor rd i rec, isDeletionFor i a = true →
      a = deletionAction i rec.inode_data (getGhostsandLive rd rec) := by
  intro a ha hp
  unfold actionsFor at ha
  rcases List.mem_cons.mp ha with rfl | ha'
  · exact absurd hp (creationAction_not_deletion i rec.inode_data _)
  · unfold restActions at ha'
    split at ha'
    · simp at ha'
    · split at ha'
      · rcases List.mem_cons.mp ha' with rfl | ha2
        · rfl
        · have := (movesDel_shape rd i rec _ a ha2).1
          simp [isDeletionFor, this] at hp
      · have := (movesNoDel_shape rd i rec _ a ha').1
        simp [isDeletionFor, this] at hp

theorem key_unique (idx : Index) (hnd : (idx.map Prod.fst).Nodup) (i : Nat)
    (r1 r2 : InodeRecord) (h1 : (i, r1) ∈ idx) (h2 : (i, r2) ∈ idx) : r1 = r2 := by
  induction idx with
  | nil => simp at h1
  | cons q t ih =>
    simp only [List.map_cons, List.nodup_cons] at hnd
    have hkey : ∀ r : InodeRecord, (i, r) ∈ t → i ∈ t.map Prod.fst :=
      fun r hr => List.mem_map_of_mem Prod.fst hr
    rcases List.mem_cons.mp h1 with he1 | h1'
    · rcases List.mem_cons.mp h2 with he2 | h2'
      · exact congrArg Prod.snd (he1.trans he2.symm)
      · exfalso
        have hq1 : q.1 = i := (congrArg Prod.fst he1).symm
        exact hnd.1 (by rw [hq1]; exact hkey r2 h2')
    · rcases List.mem_cons.mp h2 with he2 | h2'
      · exfalso
        have hq1 : q.1 = i := (congrArg Prod.fst he2).symm
        exact hnd.1 (by rw [hq1]; exact hkey r1 h1')
      · exact ih hnd.2 h1' h2'

theorem countP_flatMap_index (p : Action → Bool) (f : Nat → InodeRecord → List Action)
    (i : Nat) (rec : InodeRecord)
    (hz : ∀ j rj, j ≠ i → (f j rj).countP p = 0) :
    ∀ xs : List (Nat × InodeRecord), (xs.map Prod.fst).Nodup → (i, rec) ∈ xs →
      (xs.flatMap (fun q => f q.1 q.2)).countP p = (f i rec).countP p := by
  intro xs
  induction xs with
  | nil => intro _ h; simp at h
  | cons q t ih =>
    intro hnd hmem
    simp only [List.flatMap_cons, List.countP_append]
    simp only [List.map_cons, List.nodup_cons] at hnd
    rcases List.mem_cons.mp hmem with heq | hmem'
    · rw [← heq]
      have htail : (t.flatMap (fun q => f q.1 q.2)).countP p = 0 := by
        rw [List.countP_eq_zero]
        intro a ha
        obtain ⟨q', hq', haq⟩ := List.mem_flatMap.mp ha
        have hjne : q'.1 ≠ i := by
          intro h
          apply hnd.1
          rw [show q.1 = i from congrArg Prod.fst heq.symm, ← h]
          exact List.mem_map_of_mem Prod.fst hq'
        exact List.countP_eq_zero.mp (hz q'.1 q'.2 hjne) a haq
      rw [htail]
      simp
    · have hqi : q.1 ≠ i := by
        intro h
        apply hnd.1
        rw [h]
        exact List.mem_map_of_mem Prod.fst hmem'
      rw [hz q.1 q.2 hqi, ih hnd.2 hmem']
      simp

theorem mem_printRecoveredActions (rd : Nat → ext2_inode) (idx : Index) (a : Action) :
    a ∈ printRecoveredActions rd idx ↔
      ∃ q ∈ idx, a ∈ actionsFor rd q.1 q.2 := by
  unfold printRecoveredActions
  rw [List.mem_insertionSort, List.mem_flatMap]
  constructor
  · rintro ⟨q, hq, ha⟩
    exact ⟨q, ((List.perm_insertionSort keyLE idx).mem_iff).mp hq, ha⟩
  · rintro ⟨q, hq, ha⟩
    exact ⟨q, ((List.perm_insertionSort keyLE idx).mem_iff).mpr hq, ha⟩

theorem countP_printRecoveredActions (rd : Nat → ext2_inode) (idx : Index)
    (p : Action → Bool) (i : Nat) (rec : InodeRecord)
    (hnd : (idx.map Prod.fst).Nodup) (hmem : (i, rec) ∈ idx)
    (hz : ∀ j rj, j ≠ i → (actionsFor rd j rj).countP p = 0) :
    (printRecoveredActions rd idx).countP p = (actionsFor rd i rec).countP p := by
  unfold printRecoveredActions
  rw [(List.perm_insertionSort tsLE _).countP_eq]
  have hperm := List.perm_insertionSort keyLE idx
  have hnd' : ((sortIndex idx).map Prod.fst).Nodup := by
    exact ((hperm.map Prod.fst).nodup_iff).mpr hnd
  have hmem' : (i, rec) ∈ sortIndex idx := (hperm.mem_iff).mpr hmem
  exact countP_flatMap_index p (fun j rj => actionsFor rd j rj) i rec hz
    (sortIndex idx) hnd' hmem'

/-- Claim C5: for every inode appearing in the reference index (whose keys
are unique, as in `std::map`), the printed action log contains exactly one
creation event — kind `mkdir` when the inode's mode has the directory bit,
else `touch` — timestamped with the inode's access_time; its path and
affected directory are those of the identified `Creation` reference, else
rendered as `?` (the stored empty path renders as `?`; the stored 0
directory prints as `?`); its affected object inode is the inode number. -/
theorem creation_event_unique (rd : Nat → ext2_inode) (idx : Index) (i : Nat)
    (rec : InodeRecord) (hnd : (idx.map Prod.fst).Nodup) (hmem : (i, rec) ∈ idx) :
    (printRecoveredActions rd idx).countP (isCreationFor i) = 1 ∧
    (∀ a ∈ printRecoveredActions rd idx, isCreationFor i a = true →
      a.timestamp = rec.inode_data.access_time ∧
      a.action = (if rec.inode_data.mode &&& EXT2_I_DTYPE ≠ 0
        then ActKind.mkdir else ActKind.touch) ∧
      a.args.map renderArg = (if (getGhostsandLive rd rec).foundCreation
        then [renderArg (getGhostsandLive rd rec).CreationEntry.full_path]
        else [qmark]) ∧
      a.affected_dirs = (if (getGhostsandLive rd rec).foundCreation
        then [(getGhostsandLive rd rec).CreationEntry.parent_inode] else [0]) ∧
      a.affected_inodes = [i]) := by
  constructor
  · rw [countP_printRecoveredActions rd idx (isCreationFor i) i rec hnd hmem
      (fun j rj hne => countP_creation_actionsFor_ne rd i j rj hne)]
    exact countP_creation_actionsFor rd i rec
  · intro a ha hp
    obtain ⟨q, hq, haq⟩ := (mem_printRecoveredActions rd idx a).mp ha
    have hinode := actionsFor_inodes rd q.1 q.2 a haq
    have hqi : q.1 = i := by
      have hip : a.affected_inodes = [i] := by
        simpa [isCreationFor] using (of_decide_eq_true hp).2
      have : ([q.1] : List Nat) = [i] := hinode.symm.trans hip
      simpa using this
    have hmem2 : (i, q.2) ∈ idx := by rw [← hqi]; exact hq
    have hrec : q.2 = rec := key_unique idx hnd i q.2 rec hmem2 hmem
    rw [hqi, hrec] at haq
    have hEq := creation_mem_actionsFor rd i rec a haq hp
    subst hEq
    refine ⟨rfl, rfl, ?_, rfl, rfl⟩
    by_cases hf : (getGhostsandLive rd rec).foundCreation
    · simp [creationAction, renderArg, hf]
    · simp [creationAction, renderArg, hf]

/-- An inode record with one live reference, no ghost reference, and a
nonzero deletion_time — legal input on which the engine emits no deletion
event (the `ghost_count == 0` early `continue`). -/
def recC4 : InodeRecord :=
  ⟨{ zeroInode with deletion_time := 44 }, [⟨[47, 102], [102], 2, false⟩]⟩

/-- An index containing only `recC4` under inode number 5. -/
def idxC4 : Index := [(5, recC4)]

/-- Counterexample to claim C4 as stated: inode 5 is in the index with
nonzero deletion_time, yet the log contains no deletion event at all —
the per-inode loop `continue`s before the deletion branch whenever the
inode has no ghost reference. -/
theorem deletion_event_counterexample :
    recC4.inode_data.deletion_time ≠ 0 ∧
    (5, recC4) ∈ idxC4 ∧
    (idxC4.map Prod.fst).Nodup ∧
    (printRecoveredActions (fun _ => zeroInode) idxC4).countP (isDeletionFor 5) = 0 := by
  decide

/-- Claim C4 (amended): for every inode in the reference index with
nonzero deletion_time AND at least one ghost reference, the action log
contains exactly one deletion event — `rmdir` when the inode's mode has
the directory bit, else `rm` — timestamped with the inode's
deletion_time; its path and affected directory are those of the
identified `Deletion` reference, else rendered as `?`. -/
theorem deletion_event_unique (rd : Nat → ext2_inode) (idx : Index) (i : Nat)
    (rec : InodeRecord) (hnd : (idx.map Prod.fst).Nodup) (hmem : (i, rec) ∈ idx)
    (hdt : rec.inode_data.deletion_time ≠ 0)
    (hgc : (getGhostsandLive rd rec).ghost_count ≠ 0) :
    (printRecoveredActions rd idx).countP (isDeletionFor i) = 1 ∧
    (∀ a ∈ printRecoveredActions rd idx, isDeletionFor i a = true →
      a.timestamp = rec.inode_data.deletion_time ∧
      a.action = (if rec.inode_data.mode &&& EXT2_I_DTYPE ≠ 0
        then ActKind.rmdir else ActKind.rm) ∧
      a.args.map renderArg = (if (getGhostsandLive rd rec).foundDeletion
        then [renderArg (getGhostsandLive rd rec).DeletionEntry.full_path]
        else [qmark]) ∧
      a.affected_dirs = (if (getGhostsandLive rd rec).foundDeletion
        then [(getGhostsandLive rd rec).DeletionEntry.parent_inode] else [0]) ∧
      a.affected_inodes = [i]) := by
  constructor
  · rw [countP_printRecoveredActions rd idx (isDeletionFor i) i rec hnd hmem
      (fun j rj hne => countP_deletion_actionsFor_ne rd i j rj hne)]
    exact countP_deletion_actionsFor rd i rec hgc hdt
  · intro a ha hp
    obtain ⟨q, hq, haq⟩ := (mem_printRecoveredActions rd idx a).mp ha
    have hinode := actionsFor_inodes rd q.1 q.2 a haq
    have hqi : q.1 = i := by
      have hip : a.affected_inodes = [i] := by
        simpa [isDeletionFor] using (of_decide_eq_true hp).2
      have : ([q.1] : List Nat) = [i] := hinode.symm.trans hip
      simpa using this
    have hmem2 : (i, q.2) ∈ idx := by rw [← hqi]; exact hq
    have hrec : q.2 = rec := key_unique idx hnd i q.2 rec hmem2 hmem
    rw [hqi, hrec] at haq
    have hEq := deletion_mem_actionsFor rd i rec a haq hp
    subst hEq
    refine ⟨rfl, rfl, ?_, rfl, rfl⟩
    by_cases hf : (getGhostsandLive rd rec).foundDeletion
    · simp [deletionAction, renderArg, hf]
    · simp [deletionAction, renderArg, hf]

/-- Claim C7: the printed action log is sorted non-decreasing by
timestamp — for positions i < j, timestamp(i) ≤ timestamp(j).  The
unknown timestamp is stored as 0 (rendered `?`), and 0 ≤ t for every t,
so unknown timestamps sort before every known timestamp in their group. -/
theorem printRecoveredActions_sorted (rd : Nat → ext2_inode) (idx : Index) :
    (printRecoveredActions rd idx).Pairwise
      (fun a b => a.timestamp ≤ b.timestamp) := by
  have h := List.sorted_insertionSort tsLE
    ((sortIndex idx).flatMap (fun p => actionsFor rd p.1 p.2))
  exact h

/-- Witness data for claim C5: one live reference under inode 3. -/
def recW5 : InodeRecord :=
  ⟨{ zeroInode with access_time := 10 }, [⟨[47, 97], [97], 2, false⟩]⟩

/-- Witness index for claim C5. -/
def idxW5 : Index := [(3, recW5)]

/-- Witness for claim C5 at concrete data. -/
theorem creation_event_unique_witness :
    ((idxW5.map Prod.fst).Nodup ∧ (3, recW5) ∈ idxW5) ∧
    ((printRecoveredActions (fun _ => zeroInode) idxW5).countP (isCreationFor 3) = 1 ∧
     (∀ a ∈ printRecoveredActions (fun _ => zeroInode) idxW5, isCreationFor 3 a = true →
       a.timestamp = recW5.inode_data.access_time ∧
       a.action = (if recW5.inode_data.mode &&& EXT2_I_DTYPE ≠ 0
         then ActKind.mkdir else ActKind.touch) ∧
       a.args.map renderArg =
         (if (getGhostsandLive (fun _ => zeroInode) recW5).foundCreation
          then [renderArg (getGhostsandLive (fun _ => zeroInode) recW5).CreationEntry.full_path]
          else [qmark]) ∧
       a.affected_dirs =
         (if (getGhostsandLive (fun _ => zeroInode) recW5).foundCreation
          then [(getGhostsandLive (fun _ => zeroInode) recW5).CreationEntry.parent_inode]
          else [0]) ∧
       a.affected_inodes = [3])) :=
  ⟨⟨by decide, by decide⟩,
   creation_event_unique (fun _ => zeroInode) idxW5 3 recW5 (by decide) (by decide)⟩

/-- Witness data for the amended claim C4: one ghost reference, nonzero
deletion_time, under inode 9. -/
def recW4 : InodeRecord :=
  ⟨{ zeroInode with deletion_time := 33 }, [⟨[47, 103], [103], 2, true⟩]⟩

/-- Witness index for the amended claim C4. -/
def idxW4 : Index := [(9, recW4)]

/-- Witness for the amended claim C4 at concrete data. -/
theorem deletion_event_unique_witness :
    ((idxW4.map Prod.fst).Nodup ∧ (9, recW4) ∈ idxW4 ∧
     recW4.inode_data.deletion_time ≠ 0 ∧
     (getGhostsandLive (fun _ => zeroInode) recW4).ghost_count ≠ 0) ∧
    ((printRecoveredActions (fun _ => zeroInode) idxW4).countP (isDeletionFor 9) = 1 ∧
     (∀ a ∈ printRecoveredActions (fun _ => zeroInode) idxW4, isDeletionFor 9 a = true →
       a.timestamp = recW4.inode_data.deletion_time ∧
       a.action = (if recW4.inode_data.mode &&& EXT2_I_DTYPE ≠ 0
         then ActKind.rmdir else ActKind.rm) ∧
       a.args.map renderArg =
         (if (getGhostsandLive (fun _ => zeroInode) recW4).foundDeletion
          then [renderArg (getGhostsandLive (fun _ => zeroInode) recW4).DeletionEntry.full_path]
          else [qmark]) ∧
       a.affected_dirs =
         (if (getGhostsandLive (fun _ => zeroInode) recW4).foundDeletion
          then [(getGhostsandLive (fun _ => zeroInode) recW4).DeletionEntry.parent_inode]
          else [0]) ∧
       a.affected_inodes = [9])) :=
  ⟨⟨by decide, by decide, by decide, by decide⟩,
   deletion_event_unique (fun _ => zeroInode) idxW4 9 recW4 (by decide) (by decide)
     (by decide) (by decide)⟩

/-- The image context: block size, superblock magic, the block reader
(`readBlock`; a failing read is `none`, modelling the thrown exception),
and the inode reader (component B through its stated contract: given an
inode number it yields the inode record; 0 reads as the zero record). -/
structure Image where
  blockSize : Nat
  magic : Nat
  readBlock : Nat → Option Bytes
  readInode : Nat → ext2_inode

/-- One printed line of the tree snapshot.  The `ghostDir`/`ghostFile`
constructors are the parenthesised renderings `(inode:name/)` and
`(inode:name)`; `rootLine` is `- inode:root/`. -/
inductive OutLine where
  | rootLine (inode : Nat)
  | liveDir (depth inode : Nat) (name : Bytes)
  | ghostDir (depth inode : Nat) (name : Bytes)
  | liveFile (depth inode : Nat) (name : Bytes)
  | ghostFile (depth inode : Nat) (name : Bytes)
deriving DecidableEq

/-- Walker state: the reference index (`inode_to_info`) and the tree
output emitted so far. -/
structure St where
  index : Index
  output : List OutLine
deriving DecidableEq

/-- Append one printed line. -/
def St.addLine (st : St) (l : OutLine) : St := { st with output := st.output ++ [l] }

/-- `inode_to_info` lookup. -/
def lookupIndex (i : Nat) (idx : Index) : Option InodeRecord :=
  (idx.find? (fun p => p.1 == i)).map Prod.snd

/-- The `inode_to_info[inode]` update of the scanner
(`history.cpp:307-310` and 330-333): record the inode data on first
sight, then append the entry record. -/
def registerRef (st : St) (i : Nat) (idata : ext2_inode) (er : EntryRecord) : St :=
  { st with index :=
      match st.index.find? (fun p => p.1 == i) with
      | none => st.index ++ [(i, ⟨idata, [er]⟩)]
      | some _ => st.index.map (fun p =>
          if p.1 = i then (p.1, ⟨p.2.inode_data, p.2.entries ++ [er]⟩) else p) }

/-- One directory record as visited by the block scanner's while loop:
its header fields, name bytes, and the ghosts scavenged from its slack. -/
structure RawRec where
  inode : Nat
  length : Nat
  name_length : Nat
  file_type : Nat
  name : Bytes
  ghosts : List GhostEntry
deriving DecidableEq

/-- The record walk of `processDirectoryBlockWithGhosts`
(`history.cpp:296-338`), as the list of records it visits: the loop runs
while `offset < block_size`, stops on `length == 0`, scavenges the slack
`[offset+actual, offset+length)` whenever `length > actual`, and advances
by `length`.  `gas` bounds the iterations; each advances by `length ≥ 1`,
so `blockSize + 1` iterations always suffice. -/
def walkRecords (buf : Bytes) (blockSize : Nat) : Nat → Nat → List RawRec
  | 0, _ => []
  | gas + 1, offset =>
    if offset < blockSize then
      let inode := u32At buf offset
      let length := u16At buf (offset + 4)
      let name_length := byteAt buf (offset + 6)
      let file_type := byteAt buf (offset + 7)
      if length = 0 then []
      else
        let actual := calculateEntrySize name_length
        let ghosts :=
          if length > actual then findGhostEntries buf (offset + actual) (length - actual)
          else []
        ⟨inode, length, name_length, file_type, nameBytes buf (offset + 8) name_length,
            ghosts⟩ ::
          walkRecords buf blockSize gas (offset + length)
    else []

/-- The live-record admission test of the scanner: nonzero inode, name
neither `.` nor `..`. -/
def isLiveRec (r : RawRec) : Prop :=
  r.inode ≠ 0 ∧ r.name ≠ dotName ∧ r.name ≠ dotdotName

instance (r : RawRec) : Decidable (isLiveRec r) := by
  unfold isLiveRec
  infer_instance

/-- Accumulator of the scanner loop: the active set, the queued live
entries (name, inode, directory flag), the admitted ghosts, and the
threaded walker state. -/
structure ScanOut where
  active_inodes : List Nat
  active_entries : List (Bytes × Nat × Bool)
  all_ghosts : List GhostEntry
  st : St
deriving DecidableEq

/-- The full path the scanner builds for a name under `current_path`. -/
def childPath (current_path name : Bytes) : Bytes :=
  if current_path = [] then name else current_path ++ [47] ++ name

/-- The ghost-admission step of the scanner loop (`history.cpp:323-336`):
admit the scavenged ghost unless the block's active set holds its
inode. -/
def ghostStep (img : Image) (current_path : Bytes) (dir_inode : Nat)
    (s2 : ScanOut) (ghost : GhostEntry) : ScanOut :=
  if ghost.inode ∈ s2.active_inodes then s2
  else
    { s2 with
        all_ghosts := s2.all_ghosts ++ [ghost],
        st := registerRef s2.st ghost.inode (img.readInode ghost.inode)
          ⟨[47] ++ childPath current_path ghost.name, ghost.name, dir_inode, true⟩ }

/-- One iteration of the scanner loop (`history.cpp:300-336`): admit the
live record (active set, reference index, queue), then scan its slack
ghosts, admitting each whose inode the active set does not hold. -/
def scanStep (img : Image) (current_path : Bytes) (dir_inode : Nat)
    (s : ScanOut) (r : RawRec) : ScanOut :=
  let s1 :=
    if isLiveRec r then
      { s with
          active_inodes := s.active_inodes ++ [r.inode],
          active_entries := s.active_entries ++
            [(r.name, r.inode, r.file_type == EXT2_D_DTYPE)],
          st := registerRef s.st r.inode (img.readInode r.inode)
            ⟨[47] ++ childPath current_path r.name, r.name, dir_inode, false⟩ }
    else s
  r.ghosts.foldl (ghostStep img current_path dir_inode) s1

/-- The whole scanner loop over one block. -/
def scanBlock (img : Image) (buf : Bytes) (current_path : Bytes) (dir_inode : Nat)
    (st : St) : ScanOut :=
  (walkRecords buf img.blockSize (img.blockSize + 1) 0).foldl
    (scanStep img current_path dir_inode) ⟨[], [], [], st⟩

/-- A live admission or ghost admission, in discovery order. -/
inductive BEvent where
  | live (inode : Nat)
  | ghost (inode : Nat)
deriving DecidableEq

/-- The discovery-order admissions of one record walk, with the scanner's
active-set suppression: a live inode joins the active set before its own
slack is scavenged, and a ghost is admitted only while its inode is
absent from the active set. -/
def blockEventsAux : List RawRec → List Nat → List BEvent
  | [], _ => []
  | r :: rest, active =>
    if isLiveRec r then
      BEvent.live r.inode ::
        ((r.ghosts.filterMap (fun g =>
            if g.inode ∈ active ++ [r.inode] then none
            else some (BEvent.ghost g.inode))) ++
          blockEventsAux rest (active ++ [r.inode]))
    else
      (r.ghosts.filterMap (fun g =>
          if g.inode ∈ active then none else some (BEvent.ghost g.inode))) ++
        blockEventsAux rest active

/-- The admissions of one block. -/
def blockEvents (img : Image) (buf : Bytes) : List BEvent :=
  blockEventsAux (walkRecords buf img.blockSize (img.blockSize + 1) 0) []

/-- The ghost inodes of an event list. -/
def ghostsOf (evs : List BEvent) : List Nat :=
  evs.filterMap (fun e => match e with | .ghost i => some i | .live _ => none)

/-- The suppression invariant: walking the events with the set of live
inodes seen so far, every ghost event's inode is absent from it. -/
def NoGhostAfterLive : List BEvent → List Nat → Prop
  | [], _ => True
  | .live i :: evs, seen => NoGhostAfterLive evs (i :: seen)
  | .ghost i :: evs, seen => i ∉ seen ∧ NoGhostAfterLive evs seen

/-- Result of a pointer-block loop: fuel exhaustion, a read failure that
the enclosing catch turns into "keep what was done, drop the rest", or
normal completion. -/
inductive BRes where
  | fuel
  | abort (st : St)
  | ok (st : St)

/-- The pointer list of an indirect block: 32-bit little-endian words up
to the block's capacity, stopping at the first zero. -/
def ptrList (img : Image) (buf : Bytes) : List Nat :=
  ((List.range (img.blockSize / 4)).map (fun i => u32At buf (4 * i))).takeWhile
    (fun p => p ≠ 0)

/-- A loop over data blocks inside a single try: a failing read raises
(rest abandoned, work kept), fuel exhaustion propagates. -/
def foldBlocksB (img : Image) (pr : Bytes → St → Option St) :
    List Nat → St → BRes
  | [], st => .ok st
  | b :: rest, st =>
    match img.readBlock b with
    | none => .abort st
    | some buf =>
      match pr buf st with
      | none => .fuel
      | some st2 => foldBlocksB img pr rest st2

/-- The double-indirect loop: each pointer names an indirect block whose
data blocks are processed; failures abort the whole section. -/
def foldDouble (img : Image) (pr : Bytes → St → Option St) :
    List Nat → St → BRes
  | [], st => .ok st
  | p :: rest, st =>
    match img.readBlock p with
    | none => .abort st
    | some ib =>
      match foldBlocksB img pr (ptrList img ib) st with
      | .fuel => .fuel
      | .abort st2 => .abort st2
      | .ok st2 => foldDouble img pr rest st2

/-- The triple-indirect loop. -/
def foldTriple (img : Image) (pr : Bytes → St → Option St) :
    List Nat → St → BRes
  | [], st => .ok st
  | p :: rest, st =>
    match img.readBlock p with
    | none => .abort st
    | some db =>
      match foldDouble img pr (ptrList img db) st with
      | .fuel => .fuel
      | .abort st2 => .abort st2
      | .ok st2 => foldTriple img pr rest st2

/-- Threading of an option-valued state through a `foldl`: a failed step
poisons the rest of the loop (the walker's recursion propagates fuel
exhaustion this way). -/
def stepOpt {α : Type} (f : St → α → Option St) (acc : Option St) (a : α) : Option St :=
  match acc with
  | none => none
  | some st2 => f st2 a

/-- `processDirectoryBlockWithGhosts` (`history.cpp:289-364`),
parameterised by the recursive call `tv` into `traverseDirectory` (the
walker instantiates it with one unit less fuel).  After the scanner loop:
queued directory children recurse at the same depth; queued live files
print unless the block lies inside a ghost subtree (`history.cpp:347`,
suppressed); admitted ghost directories recurse flagged as ghosts;
admitted ghost files print only outside ghost subtrees
(`history.cpp:361`). -/
def processDirectoryBlockWithGhosts (img : Image)
    (tv : St → Nat → Nat → Bytes → Bytes → Bool → Option St)
    (buf : Bytes) (depth : Nat) (current_path : Bytes) (dir_inode : Nat)
    (parent_is_ghost : Bool) (st : St) : Option St :=
  let s := scanBlock img buf current_path dir_inode st
  let afterActive := s.active_entries.foldl (stepOpt (fun st2 ae =>
      if ae.2.2 then
        tv st2 ae.2.1 depth (childPath current_path ae.1) ae.1 parent_is_ghost
      else
        if parent_is_ghost then some st2
        else some (st2.addLine (.liveFile depth ae.2.1 ae.1)))) (some s.st)
  s.all_ghosts.foldl (stepOpt (fun st2 ghost =>
      if ghost.file_type = EXT2_D_DTYPE then
        tv st2 ghost.inode depth (childPath current_path ghost.name) ghost.name true
      else
        if parent_is_ghost then some st2
        else some (st2.addLine (.ghostFile depth ghost.inode ghost.name)))) afterActive

/-- The body of `traverseDirectory` (`history.cpp:194-286`) over an
abstract recursive call `tv`: return unless the inode's mode has the
directory bit; print the directory's own line (the root unparenthesised
at depth 1, otherwise parenthesised precisely when the subtree is ghost);
process the direct blocks (each in its own try: a failing read skips just
that block), then the single-indirect chain, then the double- and
triple-indirect chains (which, through a compiled-but-wrong implicit
conversion in the source, pass `is_ghost` where `dir_inode` is expected
and default `parent_is_ghost` to false). -/
def traverseBody (img : Image)
    (tv : St → Nat → Nat → Bytes → Bytes → Bool → Option St)
    (st : St) (inode_num depth : Nat) (current_path dir_name : Bytes)
    (is_ghost : Bool) : Option St :=
  let inode := img.readInode inode_num
  if inode.mode &&& EXT2_I_DTYPE = 0 then some st
  else
    let pr := fun buf st2 => processDirectoryBlockWithGhosts img tv buf (depth + 1)
      current_path inode_num is_ghost st2
    let prB := fun buf st2 => processDirectoryBlockWithGhosts img tv buf (depth + 1)
      current_path (if is_ghost then 1 else 0) false st2
    let st1 :=
      if dir_name ≠ [] ∨ depth = 1 then
        if depth = 1 then st.addLine (.rootLine inode_num)
        else if is_ghost then st.addLine (.ghostDir depth inode_num dir_name)
        else st.addLine (.liveDir depth inode_num dir_name)
      else st
    match (inode.direct_blocks.takeWhile (fun b => b ≠ 0)).foldl
        (stepOpt (fun st2 b =>
          match img.readBlock b with
          | none => some st2
          | some buf => pr buf st2)) (some st1) with
    | none => none
    | some st2 =>
      match (if inode.single_indirect ≠ 0 then
          match img.readBlock inode.single_indirect with
          | none => some st2
          | some ib =>
            match foldBlocksB img pr (ptrList img ib) st2 with
            | .fuel => none
            | .abort st3 => some st3
            | .ok st3 => some st3
        else some st2) with
      | none => none
      | some st3 =>
        match (if inode.double_indirect ≠ 0 then
            match img.readBlock inode.double_indirect with
            | none => some st3
            | some db =>
              match foldDouble img prB (ptrList img db) st3 with
              | .fuel => none
              | .abort st4 => some st4
              | .ok st4 => some st4
          else some st3) with
        | none => none
        | some st4 =>
          if inode.triple_indirect ≠ 0 then
            match img.readBlock inode.triple_indirect with
            | none => some st4
            | some tb =>
              match foldTriple img prB (ptrList img tb) st4 with
              | .fuel => none
              | .abort st5 => some st5
              | .ok st5 => some st5
          else some st4

/-- `traverseDirectory`, fuel-indexed: `none` exactly when the fuel does
not cover the recursion (the C++ recursion terminates on an input iff
some fuel suffices). -/
def traverseDirectory (img : Image) :
    Nat → St → Nat → Nat → Bytes → Bytes → Bool → Option St
  | 0, _, _, _, _, _, _ => none
  | fuel + 1, st, inode_num, depth, current_path, dir_name, is_ghost =>
    traverseBody img (fun st2 i d p n g => traverseDirectory img fuel st2 i d p n g)
      st inode_num depth current_path dir_name is_ghost

/-- The byte string "root". -/
def rootName : Bytes := [114, 111, 111, 116]

/-- `displayDirectoryTree` (`history.cpp:78-80`) guarded by the fatal
superblock magic check of the constructor: the walk from the root inode
at depth 1. -/
def displayDirectoryTree (img : Image) (fuel : Nat) : Option St :=
  if img.magic = EXT2_SUPER_MAGIC then
    traverseDirectory img fuel ⟨[], []⟩ EXT2_ROOT_INODE 1 [] rootName false
  else none

/-- The output lines of a finished walk (empty when the walk did not
finish in the given fuel). -/
def outputOf (o : Option St) : List OutLine :=
  match o with
  | some st => st.output
  | none => []

/-- The reference index of a finished walk. -/
def indexOf (o : Option St) : Index :=
  match o with
  | some st => st.index
  | none => []

/-- Termination of the C++ tree walk on an image: some fuel completes it. -/
def Terminates (img : Image) : Prop :=
  ∃ fuel st, traverseDirectory img fuel ⟨[], []⟩ EXT2_ROOT_INODE 1 [] rootName false =
    some st

/-- A directory inode owning the given (up to 12) direct blocks. -/
def dirInode (blocks : List Nat) : ext2_inode :=
  { zeroInode with
      mode := 0x4000,
      direct_blocks := blocks ++ List.replicate (12 - blocks.length) 0 }

/-- Root block of the C8 image: only the slack residue of ghost file
`z` → inode 7. -/
def blkC8root : Bytes :=
  [0, 0, 0, 0, 32, 0, 0, 0,
   7, 0, 0, 0, 12, 0, 1, 1, 122, 0, 0, 0,
   0, 0, 0, 0, 0, 0, 0, 0, 0, 0, 0, 0]

/-- The C8 image: the walk discovers inode 7 only as a single ghost
reference, and inode 7's record reads as all zero, so the reference index
holds exactly the failing `rec8` under key 7. -/
def imgC8 : Image :=
  { blockSize := 32, magic := 0xEF53,
    readBlock := fun b => if b = 1 then some blkC8root else none,
    readInode := fun i => if i = 2 then dirInode [1] else zeroInode }

/-- The failing input for claim C8: an inode observed only through a
single ghost reference, whose inode data is all zero (deletion_time 0). -/
def rec8 : InodeRecord := ⟨zeroInode, [⟨[47, 122], [122], 2, true⟩]⟩

/-- Claim C8 is violated by the code: on `rec8` the engine takes the
one-ghost, zero-deletion-time move branch although the entry list holds
exactly one EntryRecord, so the C++ reads `record.entries[1]` out of
bounds.  In the model the unguarded vector read is `getD` with the
default record, which surfaces as the emitted mv action's
destination: the empty path and directory 0 of a default-constructed
entry. -/
theorem mv_branch_out_of_bounds :
    (getGhostsandLive (fun _ => zeroInode) rec8).ghost_count = 1 ∧
    rec8.inode_data.deletion_time = 0 ∧
    rec8.entries.length = 1 ∧
    actionsFor (fun _ => zeroInode) 7 rec8 =
      [creationAction 7 rec8.inode_data (getGhostsandLive (fun _ => zeroInode) rec8),
       mvFrom 7 0 [47, 122] [] 2 0] ∧
    lookupIndex 7 (indexOf (displayDirectoryTree imgC8 5)) = some rec8 := by decide

/-- Root directory block of the C3 image: live file `a` (inode 12), then
live directory `d` (inode 11) whose record length 20 leaves 8 zero bytes
of slack. -/
def blkC3root : Bytes :=
  [12, 0, 0, 0, 12, 0, 1, 1, 97, 0, 0, 0,
   11, 0, 0, 0, 20, 0, 1, 2, 100, 0, 0, 0,
   0, 0, 0, 0, 0, 0, 0, 0]

/-- Block of directory 11 in the C3 image: one dead record (inode 0)
spanning the block, whose slack holds the residue record
`olda` → inode 12. -/
def blkC3d : Bytes :=
  [0, 0, 0, 0, 32, 0, 0, 0,
   12, 0, 0, 0, 12, 0, 4, 1, 111, 108, 100, 97,
   0, 0, 0, 0, 0, 0, 0, 0, 0, 0, 0, 0]

/-- The C3 image: inode 12 is live as `/a` and recoverable as ghost
`olda` inside directory 11 — a different block of the tree. -/
def imgC3 : Image :=
  { blockSize := 32, magic := 0xEF53,
    readBlock := fun b =>
      if b = 1 then some blkC3root else if b = 2 then some blkC3d else none,
    readInode := fun i =>
      if i = 2 then dirInode [1] else if i = 11 then dirInode [2] else zeroInode }

/-- Counterexample to claim C3 as stated: the image passes the magic
check, inode 12 has a live reference in the tree (`/a`, printed as a live
file line), and yet the same inode also appears as a ghost entry in the
output (`(12:olda)` under directory 11): the suppression check consults
only the active set of the block being scanned, not the whole tree. -/
theorem ghost_suppression_counterexample :
    imgC3.magic = EXT2_SUPER_MAGIC ∧
    OutLine.liveFile 2 12 [97] ∈ outputOf (displayDirectoryTree imgC3 6) ∧
    OutLine.ghostFile 3 12 [111, 108, 100, 97] ∈
      outputOf (displayDirectoryTree imgC3 6) := by decide

/-- Whether a tree line is about the given inode number. -/
def mentionsInode (i : Nat) : OutLine → Bool
  | .rootLine j => j == i
  | .liveDir _ j _ => j == i
  | .ghostDir _ j _ => j == i
  | .liveFile _ j _ => j == i
  | .ghostFile _ j _ => j == i

/-- Root block of the C6 image: only the slack residue of ghost
directory `g` → inode 5. -/
def blkC6root : Bytes :=
  [0, 0, 0, 0, 32, 0, 0, 0,
   5, 0, 0, 0, 12, 0, 1, 2, 103, 0, 0, 0,
   0, 0, 0, 0, 0, 0, 0, 0, 0, 0, 0, 0]

/-- Block of ghost directory 5 in the C6 image: live file `lf` → inode 7,
with slack residue ghost file `f` → inode 9. -/
def blkC6g : Bytes :=
  [7, 0, 0, 0, 32, 0, 2, 1, 108, 102, 0, 0,
   9, 0, 0, 0, 12, 0, 1, 1, 102, 0, 0, 0,
   0, 0, 0, 0, 0, 0, 0, 0]

/-- The C6 image: a ghost directory subtree containing a live file and a
recovered ghost file. -/
def imgC6 : Image :=
  { blockSize := 32, magic := 0xEF53,
    readBlock := fun b =>
      if b = 1 then some blkC6root else if b = 2 then some blkC6g else none,
    readInode := fun i =>
      if i = 2 then dirInode [1] else if i = 5 then dirInode [2] else zeroInode }

/-- Counterexample to claim C6 as stated: inside the ghost subtree of
directory 5, the recovered ghost file inode 9 is registered in the index
as a ghost reference but no output line mentions it — recovered ghost
non-directory entries inside a ghost subtree are suppressed
(`history.cpp:361` prints them only when the parent is not ghost), not
printed parenthesised as the claim asserts.  (The live file inode 7 is
likewise suppressed yet registered live, as the claim states.) -/
theorem ghost_nondir_suppressed_counterexample :
    imgC6.magic = EXT2_SUPER_MAGIC ∧
    lookupIndex 9 (indexOf (displayDirectoryTree imgC6 6)) =
      some ⟨zeroInode, [⟨[47, 103, 47, 102], [102], 5, true⟩]⟩ ∧
    (outputOf (displayDirectoryTree imgC6 6)).all
      (fun l => !(mentionsInode 9 l)) = true ∧
    OutLine.ghostDir 2 5 [103] ∈ outputOf (displayDirectoryTree imgC6 6) ∧
    lookupIndex 7 (indexOf (displayDirectoryTree imgC6 6)) =
      some ⟨zeroInode, [⟨[47, 103, 47, 108, 102], [108, 102], 5, false⟩]⟩ ∧
    (outputOf (displayDirectoryTree imgC6 6)).all
      (fun l => !(mentionsInode 7 l)) = true := by decide

/-- The single block of the cyclic C10 image: a live directory record
`x` pointing back at the root inode 2. -/
def blkC10 : Bytes := [2, 0, 0, 0, 16, 0, 1, 2, 120, 0, 0, 0, 0, 0, 0, 0]

/-- The C10 image: the root directory contains a directory entry naming
the root itself. -/
def imgC10 : Image :=
  { blockSize := 16, magic := 0xEF53,
    readBlock := fun b => if b = 1 then some blkC10 else none,
    readInode := fun i => if i = 2 then dirInode [1] else zeroInode }

theorem traverseC10_none :
    ∀ (fuel : Nat) (st : St) (depth : Nat) (path name : Bytes) (g : Bool),
      traverseDirectory imgC10 fuel st 2 depth path name g = none := by
  intro fuel
  induction fuel with
  | zero => intro st depth path name g; rfl
  | succ f ih =>
    intro st depth path name g
    have hwalk : walkRecords blkC10 imgC10.blockSize (imgC10.blockSize + 1) 0 =
        [⟨2, 16, 1, 2, [120], []⟩] := by decide
    have hmode : ¬ ((imgC10.readInode 2).mode &&& EXT2_I_DTYPE = 0) := by decide
    have hdirect : List.takeWhile (fun b => !decide (b = 0))
        (imgC10.readInode 2).direct_blocks = [1] := by decide
    have hrb : imgC10.readBlock 1 = some blkC10 := rfl
    have hs : (imgC10.readInode 2).single_indirect = 0 := rfl
    have hd : (imgC10.readInode 2).double_indirect = 0 := rfl
    have ht : (imgC10.readInode 2).triple_indirect = 0 := rfl
    have hlive : isLiveRec ⟨2, 16, 1, 2, [120], []⟩ := by decide
    show traverseBody imgC10 _ st 2 depth path name g = none
    simp [traverseBody, processDirectoryBlockWithGhosts, scanBlock, hwalk, scanStep,
      stepOpt, hmode, hdirect, hrb, hs, hd, ht, hlive, ih, EXT2_D_DTYPE]



/-- Counterexample to claim C10 as stated: the cyclic image passes the
magic check, yet the recursive walk never terminates — `traverseDirectory`
has no visited set, so the self-referencing directory entry `x` → inode 2
recurses forever (every fuel bound is exhausted). -/
theorem walk_nonterminating_counterexample :
    imgC10.magic = EXT2_SUPER_MAGIC ∧ ¬ Terminates imgC10 := by
  refine ⟨rfl, ?_⟩
  rintro ⟨fuel, st, h⟩
  rw [show EXT2_ROOT_INODE = 2 from rfl, traverseC10_none] at h
  exact Option.noConfusion h

/-- The ghost-admission fold of `scanStep` leaves the active set
unchanged: admitted ghosts never join it. -/
theorem ghostFold_active (img : Image) (current_path : Bytes) (dir_inode : Nat)
    (gs : List GhostEntry) :
    ∀ s1 : ScanOut,
      ((gs.foldl (ghostStep img current_path dir_inode) s1).active_inodes) =
        s1.active_inodes := by
  induction gs with
  | nil => intro s1; rfl
  | cons g gs ih =>
    intro s1
    by_cases hg : g.inode ∈ s1.active_inodes
    · rw [List.foldl_cons, ghostStep, if_pos hg]; exact ih s1
    · rw [List.foldl_cons, ghostStep, if_neg hg]; exact ih _

/-- The ghost-admission fold of `scanStep` also leaves the queued live
entries unchanged. -/
theorem ghostFold_entries (img : Image) (current_path : Bytes) (dir_inode : Nat)
    (gs : List GhostEntry) :
    ∀ s1 : ScanOut,
      ((gs.foldl (ghostStep img current_path dir_inode) s1).active_entries) =
        s1.active_entries := by
  induction gs with
  | nil => intro s1; rfl
  | cons g gs ih =>
    intro s1
    by_cases hg : g.inode ∈ s1.active_inodes
    · rw [List.foldl_cons, ghostStep, if_pos hg]; exact ih s1
    · rw [List.foldl_cons, ghostStep, if_neg hg]; exact ih _

/-- The ghost-admission fold of `scanStep` appends exactly the ghosts
whose inode the (fixed) active set does not hold. -/
theorem ghostFold_ghosts (img : Image) (current_path : Bytes) (dir_inode : Nat)
    (gs : List GhostEntry) :
    ∀ s1 : ScanOut,
      ((gs.foldl (ghostStep img current_path dir_inode) s1).all_ghosts) =
      s1.all_ghosts ++ gs.filter (fun g => !decide (g.inode ∈ s1.active_inodes)) := by
  induction gs with
  | nil => intro s1; simp
  | cons g gs ih =>
    intro s1
    by_cases hg : g.inode ∈ s1.active_inodes
    · rw [List.foldl_cons, ghostStep, if_pos hg, List.filter_cons]
      simp [hg, ih s1]
    · rw [List.foldl_cons, ghostStep, if_neg hg, List.filter_cons]
      have h2 := ih ({ s1 with
          all_ghosts := s1.all_ghosts ++ [g],
          st := registerRef s1.st g.inode (img.readInode g.inode)
            ⟨[47] ++ childPath current_path g.name, g.name, dir_inode, true⟩ } : ScanOut)
      rw [h2]
      simp [hg]

/-- `scanStep` grows the active set by the record's inode exactly when
the record is admitted live. -/
theorem scanStep_active (img : Image) (current_path : Bytes) (dir_inode : Nat)
    (s : ScanOut) (r : RawRec) :
    (scanStep img current_path dir_inode s r).active_inodes =
      s.active_inodes ++ (if isLiveRec r then [r.inode] else []) := by
  by_cases hr : isLiveRec r
  · simp [scanStep, hr, ghostFold_active]
  · simp [scanStep, hr, ghostFold_active]

/-- `scanStep` admits exactly the slack ghosts absent from the active set
as it stands after the record's own live admission. -/
theorem scanStep_ghosts (img : Image) (current_path : Bytes) (dir_inode : Nat)
    (s : ScanOut) (r : RawRec) :
    (scanStep img current_path dir_inode s r).all_ghosts =
      s.all_ghosts ++ r.ghosts.filter (fun g =>
        !decide (g.inode ∈ s.active_inodes ++ (if isLiveRec r then [r.inode] else []))) := by
  by_cases hr : isLiveRec r
  · simp [scanStep, hr, ghostFold_ghosts]
  · simp [scanStep, hr, ghostFold_ghosts]

/-- A membership-filtered ghost list, as the event stream builds it. -/
theorem filterMap_ghost_eq (gs : List GhostEntry) (A : List Nat) :
    gs.filterMap (fun g => if g.inode ∈ A then none else some (BEvent.ghost g.inode)) =
      (gs.filter (fun g => !decide (g.inode ∈ A))).map (fun g => BEvent.ghost g.inode) := by
  induction gs with
  | nil => rfl
  | cons g gs ih =>
    by_cases hg : g.inode ∈ A
    · simp [List.filterMap_cons, List.filter_cons, hg, ih]
    · simp [List.filterMap_cons, List.filter_cons, hg, ih]

/-- Ghost events of a pure ghost stream are its inodes. -/
theorem ghostsOf_ghostMap (gs : List GhostEntry) :
    ghostsOf (gs.map (fun g => BEvent.ghost g.inode)) = gs.map GhostEntry.inode := by
  induction gs with
  | nil => rfl
  | cons g gs ih => simp only [List.map_cons, ghostsOf, List.filterMap_cons] at ih ⊢; simp [ih]

/-- A live event heads away. -/
theorem ghostsOf_cons_live (i : Nat) (l : List BEvent) :
    ghostsOf (BEvent.live i :: l) = ghostsOf l := rfl

/-- Ghost events distribute over append. -/
theorem ghostsOf_append (a b : List BEvent) :
    ghostsOf (a ++ b) = ghostsOf a ++ ghostsOf b := by
  simp [ghostsOf, List.filterMap_append]

/-- The scanner fold admits, over the whole record walk, exactly the
ghost inodes of the event stream started at the fold's active set. -/
theorem scanFold_ghosts (img : Image) (current_path : Bytes) (dir_inode : Nat) :
    ∀ (recs : List RawRec) (s : ScanOut),
      ((recs.foldl (scanStep img current_path dir_inode) s).all_ghosts).map GhostEntry.inode =
        s.all_ghosts.map GhostEntry.inode ++ ghostsOf (blockEventsAux recs s.active_inodes) := by
  intro recs
  induction recs with
  | nil => intro s; simp [blockEventsAux, ghostsOf]
  | cons r rest ih =>
    intro s
    have hstep := ih (scanStep img current_path dir_inode s r)
    rw [List.foldl_cons, hstep, scanStep_ghosts, scanStep_active]
    by_cases hr : isLiveRec r
    · have hev : blockEventsAux (r :: rest) s.active_inodes =
        BEvent.live r.inode ::
          ((r.ghosts.filterMap (fun g =>
              if g.inode ∈ s.active_inodes ++ [r.inode] then none
              else some (BEvent.ghost g.inode))) ++
            blockEventsAux rest (s.active_inodes ++ [r.inode])) := by
        simp [blockEventsAux, hr]
      rw [if_pos hr, hev, ghostsOf_cons_live, ghostsOf_append, filterMap_ghost_eq,
        ghostsOf_ghostMap]
      simp [List.map_append, List.append_assoc]
    · have hev : blockEventsAux (r :: rest) s.active_inodes =
        (r.ghosts.filterMap (fun g =>
            if g.inode ∈ s.active_inodes then none
            else some (BEvent.ghost g.inode))) ++
          blockEventsAux rest s.active_inodes := by
        simp [blockEventsAux, hr]
      rw [if_neg hr, hev, ghostsOf_append, filterMap_ghost_eq, ghostsOf_ghostMap]
      simp [List.map_append, List.append_assoc]

/-- Prepending a pure ghost stream whose inodes avoid `seen` preserves
the suppression invariant. -/
theorem noGhostAfterLive_ghostMap (gs : List GhostEntry) (evs : List BEvent)
    (seen : List Nat) (h1 : ∀ g ∈ gs, g.inode ∉ seen)
    (h2 : NoGhostAfterLive evs seen) :
    NoGhostAfterLive (gs.map (fun g => BEvent.ghost g.inode) ++ evs) seen := by
  induction gs with
  | nil => simpa using h2
  | cons g gs ih =>
    refine ⟨h1 g (by simp), ?_⟩
    exact ih (fun g' hg' => h1 g' (by simp [hg']))

/-- Every event stream satisfies the suppression invariant when started
from a seen-set inside the active set: a ghost is emitted only while its
inode has no live admission earlier in the same block. -/
theorem noGhostAfterLive_aux :
    ∀ (recs : List RawRec) (active seen : List Nat),
      (∀ x ∈ seen, x ∈ active) → NoGhostAfterLive (blockEventsAux recs active) seen := by
  intro recs
  induction recs with
  | nil => intro active seen _; trivial
  | cons r rest ih =>
    intro active seen hsub
    by_cases hr : isLiveRec r
    · show NoGhostAfterLive (blockEventsAux (r :: rest) active) seen
      rw [blockEventsAux, if_pos hr]
      show NoGhostAfterLive _ (r.inode :: seen)
      rw [filterMap_ghost_eq]
      apply noGhostAfterLive_ghostMap
      · intro g hg
        have hgA : ¬ (g.inode ∈ active ++ [r.inode]) := by
          have := List.of_mem_filter hg
          simpa using this
        intro hmem
        rcases List.mem_cons.mp hmem with h | h
        · exact hgA (by simp [h])
        · exact hgA (by simp [hsub _ h])
      · apply ih
        intro x hx
        rcases List.mem_cons.mp hx with h | h
        · simp [h]
        · simp [hsub _ h]
    · show NoGhostAfterLive (blockEventsAux (r :: rest) active) seen
      rw [blockEventsAux, if_neg hr]
      rw [filterMap_ghost_eq]
      apply noGhostAfterLive_ghostMap
      · intro g hg
        have hgA : ¬ (g.inode ∈ active) := by
          have := List.of_mem_filter hg
          simpa using this
        exact fun hmem => hgA (hsub _ hmem)
      · exact ih active seen hsub
    
/-- Claim C3 (amended): ghost suppression is per directory block, not
tree-wide.  The scanner's admitted ghost inodes are exactly the ghost
events of the block's record walk, and in that event stream no ghost is
admitted whose inode already had a live admission earlier in the same
block — the only suppression the code performs (`history.cpp:325`
consults the block-local `active_inodes` set). -/
theorem ghost_suppression_per_block (img : Image) (buf current_path : Bytes)
    (dir_inode : Nat) (st : St) :
    ((scanBlock img buf current_path dir_inode st).all_ghosts).map GhostEntry.inode =
      ghostsOf (blockEvents img buf) ∧
    NoGhostAfterLive (blockEvents img buf) [] := by
  constructor
  · have h := scanFold_ghosts img current_path dir_inode
      (walkRecords buf img.blockSize (img.blockSize + 1) 0) ⟨[], [], [], st⟩
    simpa [scanBlock, blockEvents] using h
  · exact noGhostAfterLive_aux _ [] [] (by simp)

/-- The output discipline inside a ghost subtree: the walk only appends
parenthesised directory lines. -/
def GhostLinesOnly (old new : List OutLine) : Prop :=
  ∃ added, new = old ++ added ∧
    ∀ l ∈ added, ∃ d i n, l = OutLine.ghostDir d i n

/-- No lines appended. -/
theorem ghostLinesOnly_refl (o : List OutLine) : GhostLinesOnly o o :=
  ⟨[], by simp, by simp⟩

/-- Appended ghost-directory suffixes compose. -/
theorem ghostLinesOnly_trans {a b c : List OutLine}
    (h1 : GhostLinesOnly a b) (h2 : GhostLinesOnly b c) : GhostLinesOnly a c := by
  obtain ⟨s1, hb, hs1⟩ := h1
  obtain ⟨s2, hc, hs2⟩ := h2
  refine ⟨s1 ++ s2, by simp [hc, hb, List.append_assoc], ?_⟩
  intro l hl
  rcases List.mem_append.mp hl with h | h
  · exact hs1 l h
  · exact hs2 l h

/-- A single parenthesised directory line is a legal extension. -/
theorem ghostLinesOnly_addLine_ghostDir (st : St) (d i : Nat) (n : Bytes) :
    GhostLinesOnly st.output ((st.addLine (OutLine.ghostDir d i n)).output) :=
  ⟨[OutLine.ghostDir d i n], by simp [St.addLine], by simp⟩

/-- Membership of an entry record in the reference index under a key:
the inode has been registered with this reference. -/
def RefIn (i : Nat) (er : EntryRecord) (idx : Index) : Prop :=
  ∃ rec, lookupIndex i idx = some rec ∧ er ∈ rec.entries

/-- `registerRef` never touches the output. -/
theorem registerRef_output (st : St) (i : Nat) (idata : ext2_inode)
    (er : EntryRecord) : (registerRef st i idata er).output = st.output := rfl

/-- `St.addLine` never touches the index. -/
theorem addLine_index (st : St) (l : OutLine) : (st.addLine l).index = st.index := rfl

/-- `find?` by key commutes with a key-preserving map. -/
theorem find?_map_keyfix (g : Nat × InodeRecord → Nat × InodeRecord)
    (hg : ∀ p, (g p).1 = p.1) (i : Nat) :
    ∀ l : Index,
      (l.map g).find? (fun p => p.1 == i) =
        (l.find? (fun p => p.1 == i)).map g := by
  intro l
  induction l with
  | nil => rfl
  | cons p l ih =>
    by_cases hpi : p.1 = i
    · rw [List.map_cons,
        List.find?_cons_of_pos _ (by simp [hg p, hpi]),
        List.find?_cons_of_pos _ (by simp [hpi])]
      simp
    · rw [List.map_cons,
        List.find?_cons_of_neg _ (by simp [hg p, hpi]),
        List.find?_cons_of_neg _ (by simp [hpi]), ih]

/-- `registerRef` under another key preserves a looked-up record, and
under the same key appends the new reference to its entry list. -/
theorem lookupIndex_registerRef (st : St) (j k : Nat) (idata : ext2_inode)
    (er' : EntryRecord) (rec : InodeRecord)
    (h : lookupIndex k st.index = some rec) :
    lookupIndex k (registerRef st j idata er').index = some rec ∨
    lookupIndex k (registerRef st j idata er').index =
      some ⟨rec.inode_data, rec.entries ++ [er']⟩ := by
  obtain ⟨pr, hpr, hsnd⟩ : ∃ pr, st.index.find? (fun p => p.1 == k) = some pr ∧ pr.2 = rec := by
    unfold lookupIndex at h
    cases hf : st.index.find? (fun p => p.1 == k) with
    | none => rw [hf] at h; simp at h
    | some pr => rw [hf] at h; simp at h; exact ⟨pr, rfl, h⟩
  unfold registerRef
  cases hfind : st.index.find? (fun p => p.1 == j) with
  | none =>
    left
    simp only [hfind]
    unfold lookupIndex
    rw [List.find?_append, hpr]
    simp [hsnd]
  | some q =>
    simp only [hfind]
    unfold lookupIndex
    rw [find?_map_keyfix
      (fun p => if p.1 = j then (p.1, ⟨p.2.inode_data, p.2.entries ++ [er']⟩) else p)
      (fun p => by by_cases hpj : p.1 = j <;> simp [hpj]) k st.index, hpr]
    by_cases hkj : pr.1 = j
    · right; simp [hkj, hsnd]
    · left; simp [hkj, hsnd]

/-- A reference already in the index survives any further registration,
with its record's entry list only ever extended. -/
theorem RefIn_registerRef_mono (st : St) (j : Nat) (idata : ext2_inode)
    (er' : EntryRecord) {k : Nat} {er : EntryRecord}
    (h : RefIn k er st.index) : RefIn k er (registerRef st j idata er').index := by
  obtain ⟨rec, hrec, her⟩ := h
  rcases lookupIndex_registerRef st j k idata er' rec hrec with h2 | h2
  · exact ⟨rec, h2, her⟩
  · exact ⟨⟨rec.inode_data, rec.entries ++ [er']⟩, h2, by simp [her]⟩

/-- Registration puts the reference into the index. -/
theorem RefIn_registerRef_self (st : St) (j : Nat) (idata : ext2_inode)
    (er' : EntryRecord) : RefIn j er' (registerRef st j idata er').index := by
  unfold registerRef
  cases hfind : st.index.find? (fun p => p.1 == j) with
  | none =>
    refine ⟨⟨idata, [er']⟩, ?_, by simp⟩
    simp only [hfind]
    unfold lookupIndex
    rw [List.find?_append, hfind]
    simp
  | some q =>
    have hq := List.find?_some hfind
    have hq1 : q.1 = j := by simpa using hq
    refine ⟨⟨q.2.inode_data, q.2.entries ++ [er']⟩, ?_, by simp⟩
    simp only [hfind]
    unfold lookupIndex
    rw [find?_map_keyfix
      (fun p => if p.1 = j then (p.1, ⟨p.2.inode_data, p.2.entries ++ [er']⟩) else p)
      (fun p => by by_cases hpj : p.1 = j <;> simp [hpj]) j st.index, hfind]
    simp [hq1]

/-- The ghost-admission step never prints. -/
theorem ghostStep_st_output (img : Image) (cp : Bytes) (dI : Nat)
    (s : ScanOut) (g : GhostEntry) :
    (ghostStep img cp dI s g).st.output = s.st.output := by
  unfold ghostStep
  by_cases h : g.inode ∈ s.active_inodes <;> simp [h, registerRef_output]

/-- The ghost-admission fold never prints. -/
theorem ghostFold_st_output (img : Image) (cp : Bytes) (dI : Nat)
    (gs : List GhostEntry) :
    ∀ s1 : ScanOut,
      ((gs.foldl (ghostStep img cp dI) s1).st.output) = s1.st.output := by
  induction gs with
  | nil => intro s1; rfl
  | cons g gs ih =>
    intro s1
    rw [List.foldl_cons, ih, ghostStep_st_output]

/-- One scanner iteration never prints. -/
theorem scanStep_st_output (img : Image) (cp : Bytes) (dI : Nat)
    (s : ScanOut) (r : RawRec) :
    (scanStep img cp dI s r).st.output = s.st.output := by
  by_cases hr : isLiveRec r <;>
    simp [scanStep, hr, ghostFold_st_output, registerRef_output]

/-- The scanner fold never prints. -/
theorem scanFold_st_output (img : Image) (cp : Bytes) (dI : Nat) :
    ∀ (recs : List RawRec) (s : ScanOut),
      ((recs.foldl (scanStep img cp dI) s).st.output) = s.st.output := by
  intro recs
  induction recs with
  | nil => intro s; rfl
  | cons r rest ih =>
    intro s
    rw [List.foldl_cons, ih, scanStep_st_output]

/-- The scanner loop never prints: registration is index-only. -/
theorem scanBlock_st_output (img : Image) (buf cp : Bytes) (dI : Nat) (st : St) :
    (scanBlock img buf cp dI st).st.output = st.output := by
  unfold scanBlock
  rw [scanFold_st_output]

/-- The ghost-admission step preserves index references. -/
theorem ghostStep_refIn (img : Image) (cp : Bytes) (dI : Nat)
    (s : ScanOut) (g : GhostEntry) {k : Nat} {er : EntryRecord}
    (h : RefIn k er s.st.index) : RefIn k er (ghostStep img cp dI s g).st.index := by
  unfold ghostStep
  by_cases hg : g.inode ∈ s.active_inodes
  · simpa [hg] using h
  · simpa [hg] using RefIn_registerRef_mono s.st g.inode (img.readInode g.inode) _ h

/-- The ghost-admission fold preserves index references. -/
theorem ghostFold_refIn (img : Image) (cp : Bytes) (dI : Nat)
    (gs : List GhostEntry) :
    ∀ (s1 : ScanOut) {k : Nat} {er : EntryRecord},
      RefIn k er s1.st.index →
      RefIn k er ((gs.foldl (ghostStep img cp dI) s1).st.index) := by
  induction gs with
  | nil => intro s1 k er h; exact h
  | cons g gs ih =>
    intro s1 k er h
    rw [List.foldl_cons]
    exact ih _ (ghostStep_refIn img cp dI s1 g h)

/-- One scanner iteration preserves index references. -/
theorem scanStep_refIn (img : Image) (cp : Bytes) (dI : Nat)
    (s : ScanOut) (r : RawRec) {k : Nat} {er : EntryRecord}
    (h : RefIn k er s.st.index) : RefIn k er (scanStep img cp dI s r).st.index := by
  by_cases hr : isLiveRec r
  · have h1 := RefIn_registerRef_mono s.st r.inode (img.readInode r.inode)
      ⟨[47] ++ childPath cp r.name, r.name, dI, false⟩ h
    simp only [scanStep, hr, if_pos]
    exact ghostFold_refIn img cp dI r.ghosts _ h1
  · simp only [scanStep, hr, if_neg, ite_false]
    exact ghostFold_refIn img cp dI r.ghosts _ h

/-- The scanner fold preserves index references. -/
theorem scanFold_refIn (img : Image) (cp : Bytes) (dI : Nat) :
    ∀ (recs : List RawRec) (s : ScanOut) {k : Nat} {er : EntryRecord},
      RefIn k er s.st.index →
      RefIn k er ((recs.foldl (scanStep img cp dI) s).st.index) := by
  intro recs
  induction recs with
  | nil => intro s k er h; exact h
  | cons r rest ih =>
    intro s k er h
    rw [List.foldl_cons]
    exact ih _ (scanStep_refIn img cp dI s r h)

/-- The scanner loop preserves index references. -/
theorem scanBlock_refIn (img : Image) (buf cp : Bytes) (dI : Nat) (st : St)
    {k : Nat} {er : EntryRecord} (h : RefIn k er st.index) :
    RefIn k er (scanBlock img buf cp dI st).st.index := by
  unfold scanBlock
  exact scanFold_refIn img cp dI _ _ h

/-- A live record's reference is registered by its own scanner
iteration. -/
theorem scanStep_registers_live (img : Image) (cp : Bytes) (dI : Nat)
    (s : ScanOut) (r : RawRec) (hr : isLiveRec r) :
    RefIn r.inode ⟨[47] ++ childPath cp r.name, r.name, dI, false⟩
      (scanStep img cp dI s r).st.index := by
  simp only [scanStep, hr, if_pos]
  exact ghostFold_refIn img cp dI r.ghosts _
    (RefIn_registerRef_self s.st r.inode (img.readInode r.inode) _)

/-- Every live record of the walk ends up registered by the fold. -/
theorem scanFold_registers_live (img : Image) (cp : Bytes) (dI : Nat) :
    ∀ (recs : List RawRec) (s : ScanOut) (r : RawRec),
      r ∈ recs → isLiveRec r →
      RefIn r.inode ⟨[47] ++ childPath cp r.name, r.name, dI, false⟩
        ((recs.foldl (scanStep img cp dI) s).st.index) := by
  intro recs
  induction recs with
  | nil => intro s r hmem; exact absurd hmem (by simp)
  | cons r0 rest ih =>
    intro s r hmem hlive
    rw [List.foldl_cons]
    rcases List.mem_cons.mp hmem with h | h
    · subst h
      exact scanFold_refIn img cp dI rest _
        (scanStep_registers_live img cp dI s r hlive)
    · exact ih _ r h hlive

/-- Every live record of the block is registered as a live reference. -/
theorem scanBlock_registers_live (img : Image) (buf cp : Bytes) (dI : Nat)
    (st : St) (r : RawRec)
    (hmem : r ∈ walkRecords buf img.blockSize (img.blockSize + 1) 0)
    (hlive : isLiveRec r) :
    RefIn r.inode ⟨[47] ++ childPath cp r.name, r.name, dI, false⟩
      (scanBlock img buf cp dI st).st.index := by
  unfold scanBlock
  exact scanFold_registers_live img cp dI _ _ r hmem hlive

/-- The scanner invariant: every admitted ghost is registered as a ghost
reference. -/
def GhostsRegistered (cp : Bytes) (dI : Nat) (s : ScanOut) : Prop :=
  ∀ g ∈ s.all_ghosts,
    RefIn g.inode ⟨[47] ++ childPath cp g.name, g.name, dI, true⟩ s.st.index

/-- The ghost-admission step keeps the invariant. -/
theorem ghostStep_registers (img : Image) (cp : Bytes) (dI : Nat)
    (s : ScanOut) (g0 : GhostEntry) (h : GhostsRegistered cp dI s) :
    GhostsRegistered cp dI (ghostStep img cp dI s g0) := by
  intro g hg
  by_cases hm : g0.inode ∈ s.active_inodes
  · have hs : ghostStep img cp dI s g0 = s := by simp [ghostStep, hm]
    rw [hs] at hg ⊢
    exact h g hg
  · have hg2 : g ∈ s.all_ghosts ++ [g0] := by
      simpa [ghostStep, hm] using hg
    have hst : (ghostStep img cp dI s g0).st =
        registerRef s.st g0.inode (img.readInode g0.inode)
          ⟨[47] ++ childPath cp g0.name, g0.name, dI, true⟩ := by
      simp [ghostStep, hm]
    rw [hst]
    rcases List.mem_append.mp hg2 with h2 | h2
    · exact RefIn_registerRef_mono _ _ _ _ (h g h2)
    · have : g = g0 := by simpa using h2
      subst this
      exact RefIn_registerRef_self _ _ _ _

/-- The ghost-admission fold keeps the invariant. -/
theorem ghostFold_registers (img : Image) (cp : Bytes) (dI : Nat)
    (gs : List GhostEntry) :
    ∀ s1 : ScanOut, GhostsRegistered cp dI s1 →
      GhostsRegistered cp dI (gs.foldl (ghostStep img cp dI) s1) := by
  induction gs with
  | nil => intro s1 h; exact h
  | cons g gs ih =>
    intro s1 h
    rw [List.foldl_cons]
    exact ih _ (ghostStep_registers img cp dI s1 g h)

/-- One scanner iteration keeps the invariant. -/
theorem scanStep_registers (img : Image) (cp : Bytes) (dI : Nat)
    (s : ScanOut) (r : RawRec) (h : GhostsRegistered cp dI s) :
    GhostsRegistered cp dI (scanStep img cp dI s r) := by
  by_cases hr : isLiveRec r
  · simp only [scanStep, hr, if_pos]
    apply ghostFold_registers
    intro g hg
    exact RefIn_registerRef_mono _ _ _ _ (h g hg)
  · simp only [scanStep, hr, if_neg, ite_false]
    exact ghostFold_registers img cp dI r.ghosts s h

/-- The scanner fold keeps the invariant. -/
theorem scanFold_registers (img : Image) (cp : Bytes) (dI : Nat) :
    ∀ (recs : List RawRec) (s : ScanOut), GhostsRegistered cp dI s →
      GhostsRegistered cp dI (recs.foldl (scanStep img cp dI) s) := by
  intro recs
  induction recs with
  | nil => intro s h; exact h
  | cons r rest ih =>
    intro s h
    rw [List.foldl_cons]
    exact ih _ (scanStep_registers img cp dI s r h)

/-- Every admitted ghost of the block is registered as a ghost
reference. -/
theorem scanBlock_registers_ghosts (img : Image) (buf cp : Bytes) (dI : Nat)
    (st : St) : GhostsRegistered cp dI (scanBlock img buf cp dI st) := by
  unfold scanBlock
  apply scanFold_registers
  intro g hg
  exact absurd hg (by simp)

/-- A poisoned loop stays poisoned. -/
theorem foldl_stepOpt_none {α : Type} (f : St → α → Option St) :
    ∀ l : List α, l.foldl (stepOpt f) none = none := by
  intro l
  induction l with
  | nil => rfl
  | cons a l ih => rw [List.foldl_cons]; exact ih

/-- A reflexive-transitive relation on states that every loop step
establishes is established by the whole option-threaded loop. -/
theorem foldl_stepOpt_pres {α : Type} (Q : St → St → Prop)
    (hrefl : ∀ s, Q s s) (htrans : ∀ {x y z : St}, Q x y → Q y z → Q x z)
    (f : St → α → Option St) :
    ∀ (l : List α), (∀ a ∈ l, ∀ s s', f s a = some s' → Q s s') →
      ∀ st st', l.foldl (stepOpt f) (some st) = some st' → Q st st' := by
  intro l
  induction l with
  | nil =>
    intro _ st st' h
    rw [List.foldl_nil] at h
    exact Option.some.inj h ▸ hrefl st
  | cons a l ih =>
    intro hf st st' h
    rw [List.foldl_cons] at h
    cases hfa : f st a with
    | none =>
      rw [show stepOpt f (some st) a = f st a from rfl, hfa, foldl_stepOpt_none] at h
      exact absurd h (by simp)
    | some s1 =>
      rw [show stepOpt f (some st) a = f st a from rfl, hfa] at h
      exact htrans (hf a (by simp) st s1 hfa)
        (ih (fun a2 ha2 => hf a2 (by simp [ha2])) s1 st' h)

/-- Likewise for the data-block loop of a single indirect chain: any
abort or normal completion relates the incoming to the outgoing state. -/
theorem foldBlocksB_pres (Q : St → St → Prop)
    (hrefl : ∀ s, Q s s) (htrans : ∀ {x y z : St}, Q x y → Q y z → Q x z)
    (img : Image) (pr : Bytes → St → Option St)
    (hpr : ∀ buf s s', pr buf s = some s' → Q s s') :
    ∀ (l : List Nat) (st st' : St),
      (foldBlocksB img pr l st = BRes.abort st' ∨
       foldBlocksB img pr l st = BRes.ok st') → Q st st' := by
  intro l
  induction l with
  | nil =>
    intro st st' h
    rcases h with h | h
    · simp only [foldBlocksB] at h; exact absurd h (by simp)
    · simp only [foldBlocksB] at h; cases h; exact hrefl st
  | cons b rest ih =>
    intro st st' h
    simp only [foldBlocksB] at h
    cases hrb : img.readBlock b with
    | none =>
      simp only [hrb] at h
      rcases h with h | h
      · cases h; exact hrefl st
      · exact absurd h (by simp)
    | some buf =>
      simp only [hrb] at h
      cases hp : pr buf st with
      | none =>
        simp only [hp] at h
        rcases h with h | h <;> exact absurd h (by simp)
      | some st2 =>
        simp only [hp] at h
        exact htrans (hpr buf st st2 hp) (ih st2 st' h)

/-- Likewise for the double-indirect loop. -/
theorem foldDouble_pres (Q : St → St → Prop)
    (hrefl : ∀ s, Q s s) (htrans : ∀ {x y z : St}, Q x y → Q y z → Q x z)
    (img : Image) (pr : Bytes → St → Option St)
    (hpr : ∀ buf s s', pr buf s = some s' → Q s s') :
    ∀ (l : List Nat) (st st' : St),
      (foldDouble img pr l st = BRes.abort st' ∨
       foldDouble img pr l st = BRes.ok st') → Q st st' := by
  intro l
  induction l with
  | nil =>
    intro st st' h
    rcases h with h | h
    · simp only [foldDouble] at h; exact absurd h (by simp)
    · simp only [foldDouble] at h; cases h; exact hrefl st
  | cons p rest ih =>
    intro st st' h
    simp only [foldDouble] at h
    cases hrb : img.readBlock p with
    | none =>
      simp only [hrb] at h
      rcases h with h | h
      · cases h; exact hrefl st
      · exact absurd h (by simp)
    | some ib =>
      simp only [hrb] at h
      cases hfb : foldBlocksB img pr (ptrList img ib) st with
      | fuel =>
        simp only [hfb] at h
        rcases h with h | h <;> exact absurd h (by simp)
      | abort st2 =>
        simp only [hfb] at h
        have q1 := foldBlocksB_pres Q hrefl htrans img pr hpr _ st st2 (Or.inl hfb)
        rcases h with h | h
        · cases h; exact q1
        · exact absurd h (by simp)
      | ok st2 =>
        simp only [hfb] at h
        have q1 := foldBlocksB_pres Q hrefl htrans img pr hpr _ st st2 (Or.inr hfb)
        exact htrans q1 (ih st2 st' h)

/-- Likewise for the triple-indirect loop. -/
theorem foldTriple_pres (Q : St → St → Prop)
    (hrefl : ∀ s, Q s s) (htrans : ∀ {x y z : St}, Q x y → Q y z → Q x z)
    (img : Image) (pr : Bytes → St → Option St)
    (hpr : ∀ buf s s', pr buf s = some s' → Q s s') :
    ∀ (l : List Nat) (st st' : St),
      (foldTriple img pr l st = BRes.abort st' ∨
       foldTriple img pr l st = BRes.ok st') → Q st st' := by
  intro l
  induction l with
  | nil =>
    intro st st' h
    rcases h with h | h
    · simp only [foldTriple] at h; exact absurd h (by simp)
    · simp only [foldTriple] at h; cases h; exact hrefl st
  | cons p rest ih =>
    intro st st' h
    simp only [foldTriple] at h
    cases hrb : img.readBlock p with
    | none =>
      simp only [hrb] at h
      rcases h with h | h
      · cases h; exact hrefl st
      · exact absurd h (by simp)
    | some db =>
      simp only [hrb] at h
      cases hfb : foldDouble img pr (ptrList img db) st with
      | fuel =>
        simp only [hfb] at h
        rcases h with h | h <;> exact absurd h (by simp)
      | abort st2 =>
        simp only [hfb] at h
        have q1 := foldDouble_pres Q hrefl htrans img pr hpr _ st st2 (Or.inl hfb)
        rcases h with h | h
        · cases h; exact q1
        · exact absurd h (by simp)
      | ok st2 =>
        simp only [hfb] at h
        have q1 := foldDouble_pres Q hrefl htrans img pr hpr _ st st2 (Or.inr hfb)
        exact htrans q1 (ih st2 st' h)

/-- An option-threaded loop that lands on `some` started from `some`. -/
theorem foldl_stepOpt_some {α : Type} (f : St → α → Option St) :
    ∀ (l : List α) (acc : Option St) (st' : St),
      l.foldl (stepOpt f) acc = some st' →
      ∃ stA, acc = some stA ∧ l.foldl (stepOpt f) (some stA) = some st' := by
  intro l acc st' h
  cases acc with
  | none => rw [foldl_stepOpt_none] at h; exact absurd h (by simp)
  | some stA => exact ⟨stA, rfl, h⟩

/-- When the recursive call preserves index references, so does a whole
directory-block pass, starting from its scanner's state. -/
theorem process_refIn (img : Image)
    (tv : St → Nat → Nat → Bytes → Bytes → Bool → Option St)
    (htv : ∀ st2 i d p n g st3, tv st2 i d p n g = some st3 →
      ∀ k er, RefIn k er st2.index → RefIn k er st3.index) :
    ∀ (buf : Bytes) (depth : Nat) (cp : Bytes) (dI : Nat) (pg : Bool) (st st' : St),
      processDirectoryBlockWithGhosts img tv buf depth cp dI pg st = some st' →
      ∀ k er, RefIn k er (scanBlock img buf cp dI st).st.index →
        RefIn k er st'.index := by
  intro buf depth cp dI pg st st' h k er hin
  simp only [processDirectoryBlockWithGhosts] at h
  obtain ⟨stA, hA, h2⟩ := foldl_stepOpt_some _ _ _ _ h
  have hrefl : ∀ s : St, ∀ k2 er2, RefIn k2 er2 s.index → RefIn k2 er2 s.index :=
    fun _ _ _ hx => hx
  have hstep1 : ∀ ae ∈ (scanBlock img buf cp dI st).active_entries, ∀ s s',
      (if ae.2.2 then tv s ae.2.1 depth (childPath cp ae.1) ae.1 pg
       else if pg then some s
       else some (s.addLine (OutLine.liveFile depth ae.2.1 ae.1))) = some s' →
      ∀ k2 er2, RefIn k2 er2 s.index → RefIn k2 er2 s'.index := by
    intro ae _ s s' hstep k2 er2 hre
    by_cases hd : ae.2.2
    · rw [if_pos hd] at hstep
      exact htv _ _ _ _ _ _ _ hstep k2 er2 hre
    · rw [if_neg hd] at hstep
      by_cases hpg : pg = true
      · rw [if_pos hpg] at hstep
        cases hstep; exact hre
      · rw [if_neg hpg] at hstep
        cases hstep
        rw [addLine_index]; exact hre
  have hstep2 : ∀ g ∈ (scanBlock img buf cp dI st).all_ghosts, ∀ s s',
      (if g.file_type = EXT2_D_DTYPE then
        tv s g.inode depth (childPath cp g.name) g.name true
       else if pg then some s
       else some (s.addLine (OutLine.ghostFile depth g.inode g.name))) = some s' →
      ∀ k2 er2, RefIn k2 er2 s.index → RefIn k2 er2 s'.index := by
    intro g _ s s' hstep k2 er2 hre
    by_cases hd : g.file_type = EXT2_D_DTYPE
    · rw [if_pos hd] at hstep
      exact htv _ _ _ _ _ _ _ hstep k2 er2 hre
    · rw [if_neg hd] at hstep
      by_cases hpg : pg = true
      · rw [if_pos hpg] at hstep
        cases hstep; exact hre
      · rw [if_neg hpg] at hstep
        cases hstep
        rw [addLine_index]; exact hre
  have q1 := foldl_stepOpt_pres
    (fun x y => ∀ k2 er2, RefIn k2 er2 x.index → RefIn k2 er2 y.index)
    hrefl
    (fun hxy hyz k2 er2 hre => hyz k2 er2 (hxy k2 er2 hre))
    _ _ hstep1 _ _ hA
  have q2 := foldl_stepOpt_pres
    (fun x y => ∀ k2 er2, RefIn k2 er2 x.index → RefIn k2 er2 y.index)
    hrefl
    (fun hxy hyz k2 er2 hre => hyz k2 er2 (hxy k2 er2 hre))
    _ _ hstep2 _ _ h2
  exact q2 k er (q1 k er hin)

/-- Inside a ghost subtree (parent flag true) a directory-block pass
appends only parenthesised directory lines, assuming the recursive call
does so for subtrees below depth 2. -/
theorem process_ghostLines (img : Image)
    (tv : St → Nat → Nat → Bytes → Bytes → Bool → Option St)
    (htv : ∀ st2 i d p n st3, 2 ≤ d → tv st2 i d p n true = some st3 →
      GhostLinesOnly st2.output st3.output) :
    ∀ (buf : Bytes) (depth : Nat) (cp : Bytes) (dI : Nat) (st st' : St), 2 ≤ depth →
      processDirectoryBlockWithGhosts img tv buf depth cp dI true st = some st' →
      GhostLinesOnly st.output st'.output := by
  intro buf depth cp dI st st' hdep h
  simp only [processDirectoryBlockWithGhosts] at h
  obtain ⟨stA, hA, h2⟩ := foldl_stepOpt_some _ _ _ _ h
  have hstep1 : ∀ ae ∈ (scanBlock img buf cp dI st).active_entries, ∀ s s',
      (if ae.2.2 then tv s ae.2.1 depth (childPath cp ae.1) ae.1 true
       else if (true : Bool) then some s
       else some (s.addLine (OutLine.liveFile depth ae.2.1 ae.1))) = some s' →
      GhostLinesOnly s.output s'.output := by
    intro ae _ s s' hstep
    by_cases hd : ae.2.2
    · rw [if_pos hd] at hstep
      exact htv _ _ _ _ _ _ hdep hstep
    · rw [if_neg hd] at hstep
      simp only [if_pos rfl] at hstep
      cases hstep; exact ghostLinesOnly_refl _
  have hstep2 : ∀ g ∈ (scanBlock img buf cp dI st).all_ghosts, ∀ s s',
      (if g.file_type = EXT2_D_DTYPE then
        tv s g.inode depth (childPath cp g.name) g.name true
       else if (true : Bool) then some s
       else some (s.addLine (OutLine.ghostFile depth g.inode g.name))) = some s' →
      GhostLinesOnly s.output s'.output := by
    intro g _ s s' hstep
    by_cases hd : g.file_type = EXT2_D_DTYPE
    · rw [if_pos hd] at hstep
      exact htv _ _ _ _ _ _ hdep hstep
    · rw [if_neg hd] at hstep
      simp only [if_pos rfl] at hstep
      cases hstep; exact ghostLinesOnly_refl _
  have q1 := foldl_stepOpt_pres
    (fun x y => GhostLinesOnly x.output y.output)
    (fun s => ghostLinesOnly_refl s.output)
    (fun hxy hyz => ghostLinesOnly_trans hxy hyz)
    _ _ hstep1 _ _ hA
  have q2 := foldl_stepOpt_pres
    (fun x y => GhostLinesOnly x.output y.output)
    (fun s => ghostLinesOnly_refl s.output)
    (fun hxy hyz => ghostLinesOnly_trans hxy hyz)
    _ _ hstep2 _ _ h2
  have q0 : GhostLinesOnly st.output (scanBlock img buf cp dI st).st.output := by
    rw [scanBlock_st_output]
    exact ghostLinesOnly_refl _
  exact ghostLinesOnly_trans q0 (ghostLinesOnly_trans q1 q2)

/-- The directory's own line leaves the index unchanged. -/
theorem st1_index (st : St) (c1 c2 c3 : Prop)
    [Decidable c1] [Decidable c2] [Decidable c3] (l1 l2 l3 : OutLine) :
    ((if c1 then
        if c2 then st.addLine l1 else if c3 then st.addLine l2 else st.addLine l3
      else st) : St).index = st.index := by
  by_cases h1 : c1 <;> by_cases h2 : c2 <;> by_cases h3 : c3 <;>
    simp [h1, h2, h3, addLine_index]

/-- When the recursive call preserves index references, so does one
whole `traverseDirectory` body. -/
theorem traverseBody_refIn (img : Image)
    (tv : St → Nat → Nat → Bytes → Bytes → Bool → Option St)
    (htv : ∀ st2 i d p n g st3, tv st2 i d p n g = some st3 →
      ∀ k er, RefIn k er st2.index → RefIn k er st3.index) :
    ∀ (st : St) (i depth : Nat) (cp dname : Bytes) (g : Bool) (st' : St),
      traverseBody img tv st i depth cp dname g = some st' →
      ∀ k er, RefIn k er st.index → RefIn k er st'.index := by
  intro st i depth cp dname g st' h k er hin
  have hpr : ∀ (dI : Nat) (pg : Bool) (buf : Bytes) (s s' : St),
      processDirectoryBlockWithGhosts img tv buf (depth + 1) cp dI pg s = some s' →
      ∀ k2 er2, RefIn k2 er2 s.index → RefIn k2 er2 s'.index :=
    fun dI pg buf s s' hp k2 er2 hre =>
      process_refIn img tv htv buf (depth + 1) cp dI pg s s' hp k2 er2
        (scanBlock_refIn img buf cp dI s hre)
  simp only [traverseBody] at h
  by_cases hm : (img.readInode i).mode &&& EXT2_I_DTYPE = 0
  · rw [if_pos hm] at h
    cases h; exact hin
  · rw [if_neg hm] at h
    split at h
    · exact absurd h (by simp)
    · rename_i st2 heq1
      have q1 : ∀ k2 er2, RefIn k2 er2 st.index → RefIn k2 er2 st2.index := by
        intro k2 er2 hre
        refine foldl_stepOpt_pres
          (fun x y => ∀ k3 er3, RefIn k3 er3 x.index → RefIn k3 er3 y.index)
          (fun s k3 er3 hx => hx)
          (fun hxy hyz k3 er3 hx => hyz k3 er3 (hxy k3 er3 hx))
          _ _ ?_ _ _ heq1 k2 er2 ?_
        · intro b _ s s' hstep k3 er3 hre3
          cases hrb : img.readBlock b with
          | none => simp only [hrb] at hstep; cases hstep; exact hre3
          | some buf =>
            simp only [hrb] at hstep
            exact hpr i g buf s s' hstep k3 er3 hre3
        · rw [st1_index]
          exact hre
      split at h
      · exact absurd h (by simp)
      · rename_i st3 heq2
        have q2 : ∀ k2 er2, RefIn k2 er2 st2.index → RefIn k2 er2 st3.index := by
          split at heq2
          · split at heq2
            · cases heq2; exact fun _ _ hx => hx
            · rename_i ib hrb
              split at heq2
              · exact absurd heq2 (by simp)
              · rename_i stx hfb
                cases heq2
                exact foldBlocksB_pres
                  (fun x y => ∀ k3 er3, RefIn k3 er3 x.index → RefIn k3 er3 y.index)
                  (fun s k3 er3 hx => hx)
                  (fun hxy hyz k3 er3 hx => hyz k3 er3 (hxy k3 er3 hx))
                  img _ (fun buf s s' hp => hpr i g buf s s' hp)
                  _ st2 _ (Or.inl hfb)
              · rename_i stx hfb
                cases heq2
                exact foldBlocksB_pres
                  (fun x y => ∀ k3 er3, RefIn k3 er3 x.index → RefIn k3 er3 y.index)
                  (fun s k3 er3 hx => hx)
                  (fun hxy hyz k3 er3 hx => hyz k3 er3 (hxy k3 er3 hx))
                  img _ (fun buf s s' hp => hpr i g buf s s' hp)
                  _ st2 _ (Or.inr hfb)
          · cases heq2; exact fun _ _ hx => hx
        split at h
        · exact absurd h (by simp)
        · rename_i st4 heq3
          have q3 : ∀ k2 er2, RefIn k2 er2 st3.index → RefIn k2 er2 st4.index := by
            split at heq3
            · split at heq3
              · cases heq3; exact fun _ _ hx => hx
              · rename_i db hrb
                split at heq3
                · exact absurd heq3 (by simp)
                · rename_i stx hfb
                  cases heq3
                  exact foldDouble_pres
                    (fun x y => ∀ k3 er3, RefIn k3 er3 x.index → RefIn k3 er3 y.index)
                    (fun s k3 er3 hx => hx)
                    (fun hxy hyz k3 er3 hx => hyz k3 er3 (hxy k3 er3 hx))
                    img _ (fun buf s s' hp => hpr (if g then 1 else 0) false buf s s' hp)
                    _ st3 _ (Or.inl hfb)
                · rename_i stx hfb
                  cases heq3
                  exact foldDouble_pres
                    (fun x y => ∀ k3 er3, RefIn k3 er3 x.index → RefIn k3 er3 y.index)
                    (fun s k3 er3 hx => hx)
                    (fun hxy hyz k3 er3 hx => hyz k3 er3 (hxy k3 er3 hx))
                    img _ (fun buf s s' hp => hpr (if g then 1 else 0) false buf s s' hp)
                    _ st3 _ (Or.inr hfb)
            · cases heq3; exact fun _ _ hx => hx
          have q4 : ∀ k2 er2, RefIn k2 er2 st4.index → RefIn k2 er2 st'.index := by
            split at h
            · split at h
              · cases h; exact fun _ _ hx => hx
              · rename_i tb hrb
                split at h
                · exact absurd h (by simp)
                · rename_i stx hfb
                  cases h
                  exact foldTriple_pres
                    (fun x y => ∀ k3 er3, RefIn k3 er3 x.index → RefIn k3 er3 y.index)
                    (fun s k3 er3 hx => hx)
                    (fun hxy hyz k3 er3 hx => hyz k3 er3 (hxy k3 er3 hx))
                    img _ (fun buf s s' hp => hpr (if g then 1 else 0) false buf s s' hp)
                    _ st4 _ (Or.inl hfb)
                · rename_i stx hfb
                  cases h
                  exact foldTriple_pres
                    (fun x y => ∀ k3 er3, RefIn k3 er3 x.index → RefIn k3 er3 y.index)
                    (fun s k3 er3 hx => hx)
                    (fun hxy hyz k3 er3 hx => hyz k3 er3 (hxy k3 er3 hx))
                    img _ (fun buf s s' hp => hpr (if g then 1 else 0) false buf s s' hp)
                    _ st4 _ (Or.inr hfb)
            · cases h; exact fun _ _ hx => hx
          exact q4 k er (q3 k er (q2 k er (q1 k er hin)))

/-- The whole recursive walk preserves index references: registrations
are only ever added. -/
theorem traverse_refIn (img : Image) :
    ∀ (fuel : Nat) (st : St) (i depth : Nat) (cp dname : Bytes) (g : Bool) (st' : St),
      traverseDirectory img fuel st i depth cp dname g = some st' →
      ∀ k er, RefIn k er st.index → RefIn k er st'.index := by
  intro fuel
  induction fuel with
  | zero => intro st i depth cp dname g st' h; exact absurd h (by simp [traverseDirectory])
  | succ f ih =>
    intro st i depth cp dname g st' h
    simp only [traverseDirectory] at h
    exact traverseBody_refIn img _
      (fun st2 i2 d2 p2 n2 g2 st3 h3 => ih st2 i2 d2 p2 n2 g2 st3 h3)
      st i depth cp dname g st' h

/-- The directory's own line inside a ghost subtree below the root is a
parenthesised directory line (or nothing). -/
theorem st1_ghostLines (st : St) (c1 : Prop) [Decidable c1] (depth i : Nat)
    (n : Bytes) (hdep : ¬(depth = 1)) :
    GhostLinesOnly st.output
      ((if c1 then
          if depth = 1 then st.addLine (OutLine.rootLine i)
          else if (true : Bool) then st.addLine (OutLine.ghostDir depth i n)
          else st.addLine (OutLine.liveDir depth i n)
        else st) : St).output := by
  by_cases h1 : c1
  · rw [if_pos h1, if_neg hdep, if_pos (by simp)]
    exact ghostLinesOnly_addLine_ghostDir st depth i n
  · rw [if_neg h1]
    exact ghostLinesOnly_refl _

/-- A ghost-flagged walk below the root, over an image with no double- or
triple-indirect directory data, appends only parenthesised directory
lines to the output. -/
theorem traverse_ghostLines (img : Image)
    (hnd : ∀ i, (img.readInode i).double_indirect = 0 ∧
      (img.readInode i).triple_indirect = 0) :
    ∀ (fuel : Nat) (st : St) (i depth : Nat) (cp dname : Bytes) (st' : St),
      2 ≤ depth →
      traverseDirectory img fuel st i depth cp dname true = some st' →
      GhostLinesOnly st.output st'.output := by
  intro fuel
  induction fuel with
  | zero =>
    intro st i depth cp dname st' hdep h
    exact absurd h (by simp [traverseDirectory])
  | succ f ih =>
    intro st i depth cp dname st' hdep h
    simp only [traverseDirectory, traverseBody] at h
    have htv : ∀ st2 i2 d2 p2 n2 st3, 2 ≤ d2 →
        traverseDirectory img f st2 i2 d2 p2 n2 true = some st3 →
        GhostLinesOnly st2.output st3.output :=
      fun st2 i2 d2 p2 n2 st3 hd2 h3 => ih st2 i2 d2 p2 n2 st3 hd2 h3
    have hpr : ∀ (buf : Bytes) (s s' : St),
        processDirectoryBlockWithGhosts img
          (fun st2 i2 d2 p2 n2 g2 => traverseDirectory img f st2 i2 d2 p2 n2 g2)
          buf (depth + 1) cp i true s = some s' →
        GhostLinesOnly s.output s'.output :=
      fun buf s s' hp =>
        process_ghostLines img _ htv buf (depth + 1) cp i s s' (by omega) hp
    have hdep1 : ¬(depth = 1) := by omega
    by_cases hm : (img.readInode i).mode &&& EXT2_I_DTYPE = 0
    · rw [if_pos hm] at h; cases h; exact ghostLinesOnly_refl _
    · rw [if_neg hm] at h
      split at h
      · exact absurd h (by simp)
      · rename_i st2 heq1
        have q1 : GhostLinesOnly st.output st2.output := by
          refine ghostLinesOnly_trans
            (st1_ghostLines st (dname ≠ [] ∨ depth = 1) depth i dname hdep1) ?_
          refine foldl_stepOpt_pres
            (fun x y => GhostLinesOnly x.output y.output)
            (fun s => ghostLinesOnly_refl s.output)
            (fun hxy hyz => ghostLinesOnly_trans hxy hyz)
            _ _ ?_ _ _ heq1
          intro b _ s s' hstep
          cases hrb : img.readBlock b with
          | none => simp only [hrb] at hstep; cases hstep; exact ghostLinesOnly_refl _
          | some buf =>
            simp only [hrb] at hstep
            exact hpr buf s s' hstep
        split at h
        · exact absurd h (by simp)
        · rename_i st3 heq2
          have q2 : GhostLinesOnly st2.output st3.output := by
            split at heq2
            · split at heq2
              · cases heq2; exact ghostLinesOnly_refl _
              · rename_i ib hrb
                split at heq2
                · exact absurd heq2 (by simp)
                · rename_i stx hfb
                  cases heq2
                  exact foldBlocksB_pres
                    (fun x y => GhostLinesOnly x.output y.output)
                    (fun s => ghostLinesOnly_refl s.output)
                    (fun hxy hyz => ghostLinesOnly_trans hxy hyz)
                    img _ (fun buf s s' hp => hpr buf s s' hp)
                    _ st2 _ (Or.inl hfb)
                · rename_i stx hfb
                  cases heq2
                  exact foldBlocksB_pres
                    (fun x y => GhostLinesOnly x.output y.output)
                    (fun s => ghostLinesOnly_refl s.output)
                    (fun hxy hyz => ghostLinesOnly_trans hxy hyz)
                    img _ (fun buf s s' hp => hpr buf s s' hp)
                    _ st2 _ (Or.inr hfb)
            · cases heq2; exact ghostLinesOnly_refl _
          split at h
          · exact absurd h (by simp)
          · rename_i st4 heq3
            have q3 : GhostLinesOnly st3.output st4.output := by
              split at heq3
              · rename_i hc
                exact absurd (hnd i).1 hc
              · cases heq3; exact ghostLinesOnly_refl _
            have q4 : GhostLinesOnly st4.output st'.output := by
              split at h
              · rename_i hc
                exact absurd (hnd i).2 hc
              · cases h; exact ghostLinesOnly_refl _
            exact ghostLinesOnly_trans q1
              (ghostLinesOnly_trans q2 (ghostLinesOnly_trans q3 q4))

/-- Claim C6 (amended): during traversal of a ghost directory subtree
(inside-a-ghost-subtree flag true, below the root), every line the
directory-block pass appends to the tree output is a parenthesised
directory line — recovered ghost non-directory entries are NOT printed
(`history.cpp:361` prints a recovered file only when the parent is not a
ghost), contrary to the claim's "including recovered ghost non-directory
entries" — while live entries discovered inside the subtree are
suppressed from the output yet still registered in the Inode-Reference
Index as live references, and every admitted ghost entry is likewise
registered as a ghost reference.  The image must use no double- or
triple-indirect directory data: through an argument-order slip in the
source those chains are walked with the ghost flag dropped. -/
theorem ghost_subtree_behavior (img : Image) (fuel : Nat)
    (buf cp : Bytes) (depth dI : Nat) (st st' : St)
    (hnd : ∀ i, (img.readInode i).double_indirect = 0 ∧
      (img.readInode i).triple_indirect = 0)
    (hdep : 2 ≤ depth)
    (h : processDirectoryBlockWithGhosts img
      (fun st2 i d p n g => traverseDirectory img fuel st2 i d p n g)
      buf depth cp dI true st = some st') :
    GhostLinesOnly st.output st'.output ∧
    (∀ r ∈ walkRecords buf img.blockSize (img.blockSize + 1) 0, isLiveRec r →
      RefIn r.inode ⟨[47] ++ childPath cp r.name, r.name, dI, false⟩ st'.index) ∧
    (∀ g ∈ (scanBlock img buf cp dI st).all_ghosts,
      RefIn g.inode ⟨[47] ++ childPath cp g.name, g.name, dI, true⟩ st'.index) := by
  have htvM : ∀ st2 i2 d2 p2 n2 g2 st3,
      traverseDirectory img fuel st2 i2 d2 p2 n2 g2 = some st3 →
      ∀ k er, RefIn k er st2.index → RefIn k er st3.index :=
    fun st2 i2 d2 p2 n2 g2 st3 h3 =>
      traverse_refIn img fuel st2 i2 d2 p2 n2 g2 st3 h3
  have hmono : ∀ k er, RefIn k er (scanBlock img buf cp dI st).st.index →
      RefIn k er st'.index :=
    process_refIn img _ htvM buf depth cp dI true st st' h
  refine ⟨?_, ?_, ?_⟩
  · exact process_ghostLines img _
      (fun st2 i2 d2 p2 n2 st3 hd2 h3 =>
        traverse_ghostLines img hnd fuel st2 i2 d2 p2 n2 st3 hd2 h3)
      buf depth cp dI st st' hdep h
  · intro r hr hlive
    exact hmono _ _ (scanBlock_registers_live img buf cp dI st r hr hlive)
  · intro g hg
    exact hmono _ _ (scanBlock_registers_ghosts img buf cp dI st g hg)

/-- The state the ghost-subtree pass of the C6 image produces: both
files registered (inode 7 live, inode 9 ghost), nothing printed. -/
def stC6W : St :=
  ⟨[(7, ⟨zeroInode, [⟨[47, 103, 47, 108, 102], [108, 102], 5, false⟩]⟩),
    (9, ⟨zeroInode, [⟨[47, 103, 47, 102], [102], 5, true⟩]⟩)], []⟩

/-- Witness for the amended claim C6 on the C6 image's ghost-directory
block: the pass appends only parenthesised directory lines (here none),
registers the live file inode 7 as a live reference and the admitted
ghost inode 9 as a ghost reference. -/
theorem ghost_subtree_behavior_witness :
    (∀ i, (imgC6.readInode i).double_indirect = 0 ∧
      (imgC6.readInode i).triple_indirect = 0) ∧
    2 ≤ 2 ∧
    processDirectoryBlockWithGhosts imgC6
      (fun st2 i d p n g => traverseDirectory imgC6 4 st2 i d p n g)
      blkC6g 2 [103] 5 true ⟨[], []⟩ = some stC6W ∧
    (GhostLinesOnly (⟨[], []⟩ : St).output stC6W.output ∧
     (∀ r ∈ walkRecords blkC6g imgC6.blockSize (imgC6.blockSize + 1) 0,
        isLiveRec r →
        RefIn r.inode ⟨[47] ++ childPath [103] r.name, r.name, 5, false⟩
          stC6W.index) ∧
     (∀ g ∈ (scanBlock imgC6 blkC6g [103] 5 ⟨[], []⟩).all_ghosts,
        RefIn g.inode ⟨[47] ++ childPath [103] g.name, g.name, 5, true⟩
          stC6W.index)) := by
  have hnd : ∀ i, (imgC6.readInode i).double_indirect = 0 ∧
      (imgC6.readInode i).triple_indirect = 0 := by
    intro i
    by_cases h2 : i = 2 <;> by_cases h5 : i = 5 <;>
      simp [imgC6, dirInode, zeroInode, h2, h5]
  have hproc : processDirectoryBlockWithGhosts imgC6
      (fun st2 i d p n g => traverseDirectory imgC6 4 st2 i d p n g)
      blkC6g 2 [103] 5 true ⟨[], []⟩ = some stC6W := by decide
  exact ⟨hnd, by omega, hproc,
    ghost_subtree_behavior imgC6 4 blkC6g [103] 2 5 ⟨[], []⟩ stC6W hnd
      (by omega) hproc⟩

end Ext2


